import Mathlib

/-!
Shallow embedding of the `clam` shell (a Rust REPL shell: lexer, parser,
AST, tree-walking executor) and proofs of the frozen claims about it.

Source files embedded: `src/token.rs`, `src/lexer.rs`, `src/ast.rs`,
`src/parser.rs`, `src/executor.rs`.

Modelling conventions:
* Rust `String`/`Vec<char>` becomes `String`/`List Char`; `usize` becomes `Nat`;
  `i32` exit codes become `Int`.
* `Result<T, String>` becomes `Except String T`.
* Rust's unbounded recursion (the comment case of `next_token`, the parser's
  mutually recursive grammar functions, the executor's loops) is embedded with
  an explicit fuel parameter so that every definition is a computable total
  function; running out of fuel yields a distinguished "fuel" error that the
  Rust original (which always terminates on these inputs) never produces.
  Top-level wrappers pick a fuel large enough for the concrete runs proved here.
* Rust character classes `is_alphabetic` / `is_alphanumeric` / `is_whitespace`
  are Unicode; they are embedded with their ASCII restrictions
  (`Char.isAlpha`, `Char.isAlphanum`, explicit whitespace lists), which agree
  with the source on every input considered in this development.
* The host process launcher (`std::process::Command`) and the host environment
  (`std::env::var`) are external collaborators; they are parameters
  (`Launcher`, `HostEnv`) of the executor, and each launcher invocation is
  recorded in the executor state so that theorems can observe the boundary.
-/

namespace Clam

/-! ### Token model (`src/token.rs`) -/

/-- `TokenKind` from `src/token.rs`, one constructor per Rust variant. -/
inductive TokenKind where
  | Word
  | Number
  | AssignmentWord
  | Pipe
  | And
  | Or
  | Semicolon
  | Ampersand
  | Not
  | Greater
  | Less
  | GreatGreat
  | LessLess
  | LessAnd
  | GreatAnd
  | LessLessDash
  | GreatPipe
  | AndGreat
  | LessGreat
  | LeftParen
  | RightParen
  | LeftBrace
  | RightBrace
  | If
  | Then
  | Else
  | Elif
  | Fi
  | Case
  | Esac
  | For
  | Select
  | While
  | Until
  | Do
  | Done
  | In
  | Function
  | Time
  | Newline
  | Dash
  | DoubleSemicolon
  | Eof
deriving DecidableEq, Repr

/-- `Position { line, column }` from `src/token.rs` (1-based). -/
structure Position where
  line : Nat
  column : Nat
deriving DecidableEq, Repr

/-- `Token { kind, value, position }` from `src/token.rs`. -/
structure Token where
  kind : TokenKind
  value : String
  position : Position
deriving DecidableEq, Repr

/-- The text Rust's derived `Debug` prints for a `TokenKind` value
(the variant name), used in parser error messages. -/
def tokenKindDebug : TokenKind → String
  | .Word => "Word"
  | .Number => "Number"
  | .AssignmentWord => "AssignmentWord"
  | .Pipe => "Pipe"
  | .And => "And"
  | .Or => "Or"
  | .Semicolon => "Semicolon"
  | .Ampersand => "Ampersand"
  | .Not => "Not"
  | .Greater => "Greater"
  | .Less => "Less"
  | .GreatGreat => "GreatGreat"
  | .LessLess => "LessLess"
  | .LessAnd => "LessAnd"
  | .GreatAnd => "GreatAnd"
  | .LessLessDash => "LessLessDash"
  | .GreatPipe => "GreatPipe"
  | .AndGreat => "AndGreat"
  | .LessGreat => "LessGreat"
  | .LeftParen => "LeftParen"
  | .RightParen => "RightParen"
  | .LeftBrace => "LeftBrace"
  | .RightBrace => "RightBrace"
  | .If => "If"
  | .Then => "Then"
  | .Else => "Else"
  | .Elif => "Elif"
  | .Fi => "Fi"
  | .Case => "Case"
  | .Esac => "Esac"
  | .For => "For"
  | .Select => "Select"
  | .While => "While"
  | .Until => "Until"
  | .Do => "Do"
  | .Done => "Done"
  | .In => "In"
  | .Function => "Function"
  | .Time => "Time"
  | .Newline => "Newline"
  | .Dash => "Dash"
  | .DoubleSemicolon => "DoubleSemicolon"
  | .Eof => "Eof"

/-! ### Lexer (`src/lexer.rs`)

The Rust `Lexer` holds `input: Vec<char>`, `position: usize`, `line`, `column`;
since `position` only moves forward, the state is embedded as the not yet
consumed suffix of the input together with the current line and column. -/

/-- The lexer state: remaining input and the current 1-based line/column. -/
structure LexState where
  input : List Char
  line : Nat
  column : Nat
deriving DecidableEq, Repr

/-- `Lexer::current_char`: the next character, or `'\x00'` at end of input. -/
def currentChar (st : LexState) : Char :=
  st.input.headD '\x00'

/-- `Lexer::is_eof`. -/
def isEof (st : LexState) : Bool :=
  st.input.isEmpty

/-- `Lexer::advance`: consume one character, updating line/column. -/
def advance (st : LexState) : LexState :=
  match st.input with
  | [] => st
  | c :: rest =>
    if c = '\n' then ⟨rest, st.line + 1, 1⟩ else ⟨rest, st.line, st.column + 1⟩

/-- Line/column update of `Lexer::advance` for a single consumed character. -/
def advCalc (c : Char) (line col : Nat) : Nat × Nat :=
  if c = '\n' then (line + 1, 1) else (line, col + 1)

/-- `Lexer::is_word_start` (ASCII restriction of `is_alphabetic`). -/
def isWordStart (c : Char) : Bool :=
  c.isAlpha || c = '_' || c = '-' || c = '.' || c = '/'

/-- `Lexer::is_word_char` (ASCII restriction of `is_alphanumeric`). -/
def isWordChar (c : Char) : Bool :=
  c.isAlphanum || c = '_' || c = '-' || c = '.' || c = '/' || c = '$'

/-- The whitespace skipped between tokens by `Lexer::skip_whitespace`:
space, tab, carriage return (not newline). -/
def isSkippable (c : Char) : Bool :=
  c = ' ' || c = '\t' || c = '\r'

/-- The character test of Rust `char::is_whitespace` (ASCII restriction),
used by `is_standalone_dash`. -/
def isRustWhitespace (c : Char) : Bool :=
  c = ' ' || c = '\t' || c = '\n' || c = '\r'

/-- `Lexer::skip_whitespace`: consume spaces, tabs and carriage returns. -/
def skipWhitespaceAux : List Char → Nat → Nat → LexState
  | [], line, col => ⟨[], line, col⟩
  | c :: rest, line, col =>
    if isSkippable c then skipWhitespaceAux rest line (col + 1)
    else ⟨c :: rest, line, col⟩

def skipWhitespace (st : LexState) : LexState :=
  skipWhitespaceAux st.input st.line st.column

/-- The comment loop of `next_token` (`'#'` arm): consume characters up to,
not including, the next newline (or to end of input). -/
def skipCommentAux : List Char → Nat → Nat → LexState
  | [], line, col => ⟨[], line, col⟩
  | c :: rest, line, col =>
    if c = '\n' then ⟨c :: rest, line, col⟩
    else skipCommentAux rest line (col + 1)

def skipComment (st : LexState) : LexState :=
  skipCommentAux st.input st.line st.column

/-- `Lexer::is_standalone_dash`: the dash is standalone when the character
after it is whitespace, end of input, or a redirection/separator character. -/
def isStandaloneDash (st : LexState) : Bool :=
  match st.input with
  | _ :: next :: _ =>
    isRustWhitespace next || next = '>' || next = '<' || next = '|' ||
      next = '&' || next = ';'
  | _ => true

/-- The collecting loop shared by word reading: consume characters while `p`
holds, returning the collected characters, the rest, and the new line/column. -/
def readWhile (p : Char → Bool) : List Char → Nat → Nat →
    List Char × List Char × Nat × Nat
  | [], line, col => ([], [], line, col)
  | c :: rest, line, col =>
    if p c then
      let (lc : Nat × Nat) := advCalc c line col
      let r := readWhile p rest lc.1 lc.2
      (c :: r.1, r.2.1, r.2.2.1, r.2.2.2)
    else ([], c :: rest, line, col)

/-- The quoted-string body loop shared by `read_quoted_string` and the quoted
value case of `read_word`: consume until the closing `quote` (left in the
rest) or end of input; inside double quotes a backslash escapes the next
character (backslash dropped, escaped character kept). -/
def readQuotedAux (quote : Char) : List Char → Nat → Nat →
    List Char × List Char × Nat × Nat
  | [], line, col => ([], [], line, col)
  | c :: rest, line, col =>
    if c = quote then ([], c :: rest, line, col)
    else if c = '\\' && quote = '"' then
      match rest with
      | [] =>
        let (lc : Nat × Nat) := advCalc c line col
        ([], [], lc.1, lc.2)
      | d :: rest2 =>
        let (lc : Nat × Nat) := advCalc c line col
        let (lc2 : Nat × Nat) := advCalc d lc.1 lc.2
        let r := readQuotedAux quote rest2 lc2.1 lc2.2
        (d :: r.1, r.2.1, r.2.2.1, r.2.2.2)
    else
      let (lc : Nat × Nat) := advCalc c line col
      let r := readQuotedAux quote rest lc.1 lc.2
      (c :: r.1, r.2.1, r.2.2.1, r.2.2.2)

/-- `Lexer::read_quoted_string`: a quoted string becomes a single `Word`
token; an unterminated quote is a lexical error naming the opening
position. -/
def readQuotedString (quote : Char) (st : LexState) : Except String (Token × LexState) :=
  let pos : Position := ⟨st.line, st.column⟩
  let st1 := advance st
  let r := readQuotedAux quote st1.input st1.line st1.column
  match r.2.1 with
  | [] =>
    .error ("Unterminated string at " ++ toString pos.line ++ ":" ++ toString pos.column)
  | _ :: rest =>
    .ok (⟨.Word, String.mk r.1, pos⟩, ⟨rest, r.2.2.1, r.2.2.2 + 1⟩)

/-- `Lexer::read_variable_or_word`: after a `$`, either `${...}` (unterminated
is the positionless error "Unclosed variable expansion") or a bare `$name`
reading alphanumerics and underscores; the `$...` text is kept verbatim. -/
def readVariableOrWord (pos : Position) (st : LexState) : Except String (Token × LexState) :=
  let st1 := advance st
  if currentChar st1 = '{' && !isEof st1 then
    let st2 := advance st1
    let r := readWhile (fun c => !(c = '}')) st2.input st2.line st2.column
    match r.2.1 with
    | [] => .error "Unclosed variable expansion"
    | _ :: rest =>
      .ok (⟨.Word, String.mk ('$' :: '{' :: r.1 ++ ['}']), pos⟩, ⟨rest, r.2.2.1, r.2.2.2 + 1⟩)
  else
    let r := readWhile (fun c => c.isAlphanum || c = '_') st1.input st1.line st1.column
    .ok (⟨.Word, String.mk ('$' :: r.1), pos⟩, ⟨r.2.1, r.2.2.1, r.2.2.2⟩)

/-- The keyword reclassification table at the end of `read_word`. -/
def keywordKind (w : String) : TokenKind :=
  if w = "if" then .If
  else if w = "then" then .Then
  else if w = "else" then .Else
  else if w = "elif" then .Elif
  else if w = "fi" then .Fi
  else if w = "case" then .Case
  else if w = "esac" then .Esac
  else if w = "for" then .For
  else if w = "select" then .Select
  else if w = "while" then .While
  else if w = "until" then .Until
  else if w = "do" then .Do
  else if w = "done" then .Done
  else if w = "in" then .In
  else if w = "function" then .Function
  else if w = "time" then .Time
  else .Word

/-- `Lexer::read_word`: read word characters; `=` turns the token into an
`AssignmentWord` whose value part may be quoted (with escape handling, eof
tolerated) or raw; otherwise reclassify exact keyword matches. -/
def readWord (pos : Position) (st : LexState) : Except String (Token × LexState) :=
  let r := readWhile isWordChar st.input st.line st.column
  let word := r.1
  let st1 : LexState := ⟨r.2.1, r.2.2.1, r.2.2.2⟩
  if currentChar st1 = '=' && !isEof st1 then
    let st2 := advance st1
    if !isEof st2 && (currentChar st2 = '"' || currentChar st2 = '\'') then
      let quote := currentChar st2
      let st3 := advance st2
      let q := readQuotedAux quote st3.input st3.line st3.column
      let st4 : LexState :=
        match q.2.1 with
        | [] => ⟨[], q.2.2.1, q.2.2.2⟩
        | _ :: rest => ⟨rest, q.2.2.1, q.2.2.2 + 1⟩
      .ok (⟨.AssignmentWord, String.mk (word ++ '=' :: q.1), pos⟩, st4)
    else
      let v := readWhile isWordChar st2.input st2.line st2.column
      .ok (⟨.AssignmentWord, String.mk (word ++ '=' :: v.1), pos⟩, ⟨v.2.1, v.2.2.1, v.2.2.2⟩)
  else
    let s := String.mk word
    .ok (⟨keywordKind s, s, pos⟩, st1)

/-- `Lexer::read_number_or_word`: a digit run followed by `>` or `<` is a
`Number` (fd prefix); otherwise it keeps reading as a word, possibly
becoming an `AssignmentWord` (raw value only in this branch). -/
def readNumberOrWord (pos : Position) (st : LexState) : Except String (Token × LexState) :=
  let d := readWhile Char.isDigit st.input st.line st.column
  let st1 : LexState := ⟨d.2.1, d.2.2.1, d.2.2.2⟩
  let next := currentChar st1
  if next = '>' || next = '<' then
    .ok (⟨.Number, String.mk d.1, pos⟩, st1)
  else
    let w := readWhile isWordChar st1.input st1.line st1.column
    let st2 : LexState := ⟨w.2.1, w.2.2.1, w.2.2.2⟩
    let value := d.1 ++ w.1
    if currentChar st2 = '=' && !isEof st2 then
      let st3 := advance st2
      let v := readWhile isWordChar st3.input st3.line st3.column
      .ok (⟨.AssignmentWord, String.mk (value ++ '=' :: v.1), pos⟩, ⟨v.2.1, v.2.2.1, v.2.2.2⟩)
    else
      .ok (⟨.Word, String.mk value, pos⟩, st2)

/-- `Lexer::next_token`. The fuel only bounds the comment recursion (each
comment consumes at least its `#`, so `input.length + 1` always suffices). -/
def nextToken : Nat → LexState → Except String (Token × LexState)
  | 0, _ => .error "lexer fuel exhausted"
  | fuel + 1, st =>
    let pos : Position := ⟨st.line, st.column⟩
    let ch := currentChar st
    if ch = '\n' then .ok (⟨.Newline, "\n", pos⟩, advance st)
    else if ch = ';' then
      let st1 := advance st
      if currentChar st1 = ';' then .ok (⟨.DoubleSemicolon, ";;", pos⟩, advance st1)
      else .ok (⟨.Semicolon, ";", pos⟩, st1)
    else if ch = '|' then
      let st1 := advance st
      if currentChar st1 = '|' then .ok (⟨.Or, "||", pos⟩, advance st1)
      else .ok (⟨.Pipe, "|", pos⟩, st1)
    else if ch = '&' then
      let st1 := advance st
      if currentChar st1 = '&' then .ok (⟨.And, "&&", pos⟩, advance st1)
      else if currentChar st1 = '>' then .ok (⟨.AndGreat, "&>", pos⟩, advance st1)
      else .ok (⟨.Ampersand, "&", pos⟩, st1)
    else if ch = '>' then
      let st1 := advance st
      if currentChar st1 = '>' then .ok (⟨.GreatGreat, ">>", pos⟩, advance st1)
      else if currentChar st1 = '&' then .ok (⟨.GreatAnd, ">&", pos⟩, advance st1)
      else if currentChar st1 = '|' then .ok (⟨.GreatPipe, ">|", pos⟩, advance st1)
      else .ok (⟨.Greater, ">", pos⟩, st1)
    else if ch = '<' then
      let st1 := advance st
      if currentChar st1 = '<' then
        let st2 := advance st1
        if currentChar st2 = '-' then .ok (⟨.LessLessDash, "<<-", pos⟩, advance st2)
        else .ok (⟨.LessLess, "<<", pos⟩, st2)
      else if currentChar st1 = '&' then .ok (⟨.LessAnd, "<&", pos⟩, advance st1)
      else if currentChar st1 = '>' then .ok (⟨.LessGreat, "<>", pos⟩, advance st1)
      else .ok (⟨.Less, "<", pos⟩, st1)
    else if ch = '!' then .ok (⟨.Not, "!", pos⟩, advance st)
    else if ch = '(' then .ok (⟨.LeftParen, "(", pos⟩, advance st)
    else if ch = ')' then .ok (⟨.RightParen, ")", pos⟩, advance st)
    else if ch = '{' then .ok (⟨.LeftBrace, "\x7b", pos⟩, advance st)
    else if ch = '}' then .ok (⟨.RightBrace, "\x7d", pos⟩, advance st)
    else if ch = '-' && isStandaloneDash st then .ok (⟨.Dash, "-", pos⟩, advance st)
    else if ch = '#' then nextToken fuel (skipComment st)
    else if ch = '"' then readQuotedString '"' st
    else if ch = '\'' then readQuotedString '\'' st
    else if ch = '$' then readVariableOrWord pos st
    else if ch.isDigit then readNumberOrWord pos st
    else if isWordStart ch then readWord pos st
    else
      .error ("Unexpected character '" ++ String.mk [ch] ++ "' at " ++
        toString st.line ++ ":" ++ toString st.column)

/-- The loop of `Lexer::tokenize`, plus the final `Eof` token. The fuel is
decremented once per produced token; every successful `next_token` consumes
at least one character, so `input.length + 1` always suffices. -/
def tokenizeAux : Nat → LexState → Except String (List Token)
  | 0, _ => .error "lexer fuel exhausted"
  | fuel + 1, st =>
    let st := skipWhitespace st
    if isEof st then .ok [⟨.Eof, "", ⟨st.line, st.column⟩⟩]
    else
      match nextToken (fuel + 1) st with
      | .error e => .error e
      | .ok (t, st') =>
        match tokenizeAux fuel st' with
        | .error e => .error e
        | .ok ts => .ok (t :: ts)

/-- `Lexer::tokenize` on a whole input string (`Lexer::new` starts at 1:1). -/
def tokenize (s : String) : Except String (List Token) :=
  tokenizeAux (s.data.length + 1) ⟨s.data, 1, 1⟩

/-! ### AST (`src/ast.rs`)

The Rust `struct` payloads of recursive `Command` variants
(`Pipeline`, `List`, `IfCommand`, …) are inlined into the constructors;
`ListItem` and `CaseClause` stay separate types in the mutual block.
`Box<Command>` is just `Command`. -/

/-- `Assignment { name, value }`. -/
structure Assignment where
  name : String
  value : String
deriving DecidableEq, Repr

/-- `Word { value }`. -/
structure Word where
  value : String
deriving DecidableEq, Repr

/-- `RedirectionKind`. -/
inductive RedirectionKind where
  | Input
  | Output
  | Append
  | Heredoc
  | HeredocStrip
  | InputDup
  | OutputDup
  | InputOutput
  | Clobber
  | OutputBoth
deriving DecidableEq, Repr

/-- `RedirectionTarget`. -/
inductive RedirectionTarget where
  | File (path : String)
  | Fd (n : Int)
  | Close
deriving DecidableEq, Repr

/-- `Redirection { kind, fd, target }`. -/
structure Redirection where
  kind : RedirectionKind
  fd : Option Int
  target : RedirectionTarget
deriving DecidableEq, Repr

/-- `Separator`. -/
inductive Separator where
  | Sequential
  | Background
  | And
  | Or
  | Pipe
deriving DecidableEq, Repr

/-- `SimpleCommand { assignments, words, redirections }`. -/
structure SimpleCommand where
  assignments : List Assignment
  words : List Word
  redirections : List Redirection
deriving DecidableEq, Repr

mutual

/-- `Command` from `src/ast.rs`. Fields of the per-variant structs are
inlined, in source order. (The executor's `Command::Redirected` match arm
refers to a variant that does not exist in `ast.rs`; see `execStep`.) -/
inductive Command where
  | Simple (cmd : SimpleCommand)
  | Pipeline (negated : Bool) (commands : List Command)
  | List (items : List ListItem)
  | Subshell (command : Command)
  | If (condition : Command) (thenPart : Command)
      (elifParts : List (Command × Command)) (elsePart : Option Command)
  | While (condition : Command) (body : Command)
  | Until (condition : Command) (body : Command)
  | For (varName : String) (words : List String) (body : Command)
  | Case (word : String) (cases : List CaseClause)
  | FunctionDef (name : String) (body : Command)
  | Group (commands : List Command)

/-- `ListItem { command, separator }`. -/
inductive ListItem where
  | mk (command : Command) (separator : Separator)

/-- `CaseClause { patterns, body }`. -/
inductive CaseClause where
  | mk (patterns : List String) (body : Command)

end

def ListItem.command : ListItem → Command
  | .mk c _ => c

def ListItem.separator : ListItem → Separator
  | .mk _ s => s

def CaseClause.patterns : CaseClause → List String
  | .mk p _ => p

def CaseClause.body : CaseClause → Command
  | .mk _ b => b

/-! ### Parser (`src/parser.rs`)

The Rust `Parser` holds the token vector and a forward-moving `position`. -/

/-- The parser state. -/
structure PState where
  tokens : List Token
  pos : Nat
deriving Repr

/-- Placeholder token used to totalize the out-of-bounds accesses that the
Rust code never performs on lexer-produced (`Eof`-terminated) token
vectors. Its kind `Eof` makes `is_at_end` agree with the source on every
token vector. -/
def defToken : Token :=
  ⟨.Eof, "", ⟨0, 0⟩⟩

/-- `Parser::current`. -/
def currentTok (st : PState) : Token :=
  st.tokens.getD st.pos defToken

/-- `Parser::is_at_end`. -/
def pAtEnd (st : PState) : Bool :=
  st.tokens.length ≤ st.pos || (currentTok st).kind == TokenKind.Eof

/-- `Parser::check`. -/
def checkTok (st : PState) (kind : TokenKind) : Bool :=
  !pAtEnd st && (currentTok st).kind == kind

/-- `Parser::advance`: move forward unless at end; return the token before
the new position. -/
def advanceTok (st : PState) : Token × PState :=
  if pAtEnd st then (st.tokens.getD (st.pos - 1) defToken, st)
  else (st.tokens.getD st.pos defToken, ⟨st.tokens, st.pos + 1⟩)

/-- `Parser::expect`: `check` then `advance`, or a positioned syntax error. -/
def expectTok (st : PState) (kind : TokenKind) : Except String (Token × PState) :=
  if checkTok st kind then .ok (advanceTok st)
  else
    .error ("Expected " ++ tokenKindDebug kind ++ ", got " ++
      tokenKindDebug (currentTok st).kind ++ " at " ++
      toString (currentTok st).position.line ++ ":" ++
      toString (currentTok st).position.column)

/-- `Parser::skip_newlines` (advance while the current token is a newline). -/
def skipNewlinesP (st : PState) : PState :=
  ⟨st.tokens,
    st.pos + ((st.tokens.drop st.pos).takeWhile (fun t => t.kind == TokenKind.Newline)).length⟩

/-- The redirection-operator kinds accepted after a `Number` fd prefix by
`Parser::is_redirection` (the source omits `GreatPipe`, `AndGreat`,
`LessLessDash` in this branch). -/
def isRedirOpAfterNumber : TokenKind → Bool
  | .Greater | .Less | .GreatGreat | .LessLess | .LessAnd | .GreatAnd | .LessGreat => true
  | _ => false

/-- The redirection-operator kinds accepted with no fd prefix by
`Parser::is_redirection`. -/
def isRedirOp : TokenKind → Bool
  | .Greater | .Less | .GreatGreat | .LessLess | .LessAnd | .GreatAnd
  | .LessGreat | .GreatPipe | .AndGreat | .LessLessDash => true
  | _ => false

/-- `Parser::is_redirection`. -/
def isRedirection (st : PState) : Bool :=
  if checkTok st .Number then
    if st.pos + 1 < st.tokens.length then
      isRedirOpAfterNumber (st.tokens.getD (st.pos + 1) defToken).kind
    else false
  else isRedirOp (currentTok st).kind

/-- The text Rust's derived `Debug` prints for a whole `Token` (used in the
`parse_redirection` operator error; the value is inserted without Rust's
string escaping, which no claim depends on). -/
def tokenDebug (t : Token) : String :=
  "Token \x7b kind: " ++ tokenKindDebug t.kind ++ ", value: \"" ++ t.value ++
    "\", position: Position \x7b line: " ++ toString t.position.line ++
    ", column: " ++ toString t.position.column ++ " \x7d \x7d"

/-- `Parser::is_word_or_keyword`: `Word` plus the reserved words accepted as
ordinary arguments (`done`, `time`, `in`), never structural keywords. -/
def isWordOrKeyword (st : PState) : Bool :=
  match (currentTok st).kind with
  | .Word | .Done | .Time | .In => true
  | _ => false

/-- `value.parse::<i32>().unwrap()` on a digit-run `Number` token
(overflow panics are not modelled). -/
def parseI32 (s : String) : Int :=
  (s.toInt?).getD 0

/-- Rust `str::split_once`: split at the first occurrence of `c`. -/
def splitOnceAux (c : Char) : List Char → Option (List Char × List Char)
  | [] => none
  | x :: xs =>
    if x = c then some ([], xs)
    else (splitOnceAux c xs).map (fun p => (x :: p.1, p.2))

def splitOnce (s : String) (c : Char) : Option (String × String) :=
  (splitOnceAux c s.data).map (fun p => (String.mk p.1, String.mk p.2))

/-- `Parser::parse_redirection`. -/
def parseRedirection (st : PState) : Except String (Redirection × PState) :=
  let (fd, st1) : Option Int × PState :=
    if checkTok st .Number then
      let (tok, st') := advanceTok st
      (some (parseI32 tok.value), st')
    else (none, st)
  let kindToken := currentTok st1
  let kindOpt : Option RedirectionKind :=
    match kindToken.kind with
    | .Greater => some .Output
    | .Less => some .Input
    | .GreatGreat => some .Append
    | .LessLess => some .Heredoc
    | .LessLessDash => some .HeredocStrip
    | .LessAnd => some .InputDup
    | .GreatAnd => some .OutputDup
    | .LessGreat => some .InputOutput
    | .GreatPipe => some .Clobber
    | .AndGreat => some .OutputBoth
    | _ => none
  match kindOpt with
  | none => .error ("Expected redirection operator, got " ++ tokenDebug kindToken)
  | some kind =>
    let st2 := (advanceTok st1).2
    if checkTok st2 .Dash then
      .ok (⟨kind, fd, .Close⟩, (advanceTok st2).2)
    else if checkTok st2 .Number then
      let (tok, st3) := advanceTok st2
      .ok (⟨kind, fd, .Fd (parseI32 tok.value)⟩, st3)
    else if checkTok st2 .Word then
      let (tok, st3) := advanceTok st2
      .ok (⟨kind, fd, .File tok.value⟩, st3)
    else .error "Expected redirection target"

/-- The running state of the `parse_simple_command` loop. -/
def finishSimple (cmd : SimpleCommand) (madeProgress : Bool) (st : PState) :
    Except String (Command × PState) :=
  if !madeProgress && cmd.assignments.isEmpty && cmd.words.isEmpty &&
      cmd.redirections.isEmpty then
    .error "Expected command"
  else .ok (.Simple cmd, st)

/-- The loop of `Parser::parse_simple_command`: accumulate assignment words,
redirections and argument words until none applies (with the source's
no-progress safety break). Each continuing iteration advances the
position, so `tokens.length + 1` fuel always suffices. -/
def simpleLoop : Nat → SimpleCommand → Bool → PState → Except String (Command × PState)
  | 0, _, _, _ => .error "parser fuel exhausted"
  | fuel + 1, cmd, madeProgress, st =>
    if checkTok st .AssignmentWord then
      let (tok, st') := advanceTok st
      let cmd' :=
        match splitOnce tok.value '=' with
        | some (n, v) => { cmd with assignments := cmd.assignments ++ [⟨n, v⟩] }
        | none => cmd
      if st'.pos = st.pos then finishSimple cmd' true st'
      else simpleLoop fuel cmd' true st'
    else if isRedirection st then
      match parseRedirection st with
      | .error e => .error e
      | .ok (r, st') =>
        let cmd' := { cmd with redirections := cmd.redirections ++ [r] }
        if st'.pos = st.pos then finishSimple cmd' true st'
        else simpleLoop fuel cmd' true st'
    else if isWordOrKeyword st then
      let (tok, st') := advanceTok st
      let cmd' := { cmd with words := cmd.words ++ [⟨tok.value⟩] }
      if st'.pos = st.pos then finishSimple cmd' true st'
      else simpleLoop fuel cmd' true st'
    else finishSimple cmd madeProgress st

/-- `Parser::parse_simple_command`. -/
def parseSimpleCommand (st : PState) : Except String (Command × PState) :=
  simpleLoop (st.tokens.length + 1) ⟨[], [], []⟩ false st

/-- The mutually recursive grammar functions of `src/parser.rs`, one tag per
function; loop bodies carry their accumulators in the tag. -/
inductive PFn where
  | list
  | list0
  | list1
  | list1Loop (left : Command)
  | pipelineCommand
  | pipeline
  | pipelineLoop (commands : List Command)
  | command
  | ifCommand
  | elifLoop (condition : Command) (thenPart : Command)
      (elifParts : List (Command × Command))
  | compoundList (terminators : List TokenKind)
  | compoundLoop (terminators : List TokenKind) (left : Command)
  | whileCommand
  | untilCommand
  | forCommand
  | caseCommand
  | caseLoop (word : String) (cases : List CaseClause)
  | casePatterns (word : String) (cases : List CaseClause) (patterns : List String)
  | subshell
  | group
  | groupLoop (commands : List Command)
  | functionDef

/-- The separator scan at the top of the `parse_list1` loop, duplicated
verbatim in the `parse_compound_list` loop: consume one of
`&&`/`||`/`&`/`;`/newline (plus following newlines), or report no
separator found. -/
def scanListSep (st : PState) : Bool × Separator × PState :=
  if checkTok st .And then (true, .And, skipNewlinesP (advanceTok st).2)
  else if checkTok st .Or then (true, .Or, skipNewlinesP (advanceTok st).2)
  else if checkTok st .Ampersand then (true, .Background, skipNewlinesP (advanceTok st).2)
  else if checkTok st .Semicolon then (true, .Sequential, skipNewlinesP (advanceTok st).2)
  else if checkTok st .Newline then (true, .Sequential, skipNewlinesP (advanceTok st).2)
  else (false, .Sequential, st)

/-- The trailing-separator scan of `parse_list0`
(newline/`&`/`;`, else an implicit `Sequential`). -/
def scanList0Sep (st : PState) : Separator × PState :=
  if checkTok st .Newline then (.Sequential, skipNewlinesP (advanceTok st).2)
  else if checkTok st .Ampersand then (.Background, skipNewlinesP (advanceTok st).2)
  else if checkTok st .Semicolon then (.Sequential, skipNewlinesP (advanceTok st).2)
  else (.Sequential, st)

/-- One unified embedding of the parser's mutually recursive functions
(`parse_list`, `parse_list0`, `parse_list1`, `parse_pipeline_command`,
`parse_pipeline`, `parse_command`, `parse_if_command`,
`parse_compound_list`, `parse_while_command`, `parse_until_command`,
`parse_for_command`, `parse_case_command`, `parse_subshell`,
`parse_group_command`, `parse_function_def`), dispatched on a `PFn` tag,
with fuel decremented at every call (the Rust recursion is bounded by the
input, so a fuel linear in the token count suffices; see `parse`). -/
def parseStep : Nat → PFn → PState → Except String (Command × PState)
  | 0, _, _ => .error "parser fuel exhausted"
  | fuel + 1, fn, st =>
    match fn with
    | .list => parseStep fuel .list0 (skipNewlinesP st)
    | .list0 =>
      match parseStep fuel .list1 st with
      | .error e => .error e
      | .ok (first, st1) =>
        let sepSt := scanList0Sep st1
        let items := [ListItem.mk first sepSt.1]
        if items.length = 1 then .ok ((items.headD (.mk first sepSt.1)).command, sepSt.2)
        else .ok (.List items, sepSt.2)
    | .list1 =>
      match parseStep fuel .pipelineCommand st with
      | .error e => .error e
      | .ok (left, st1) => parseStep fuel (.list1Loop left) st1
    | .list1Loop left =>
      let fss := scanListSep st
      if fss.1 then
        match parseStep fuel .pipelineCommand fss.2.2 with
        | .error e => .error e
        | .ok (right, st2) =>
          parseStep fuel
            (.list1Loop (.List [.mk left fss.2.1, .mk right .Sequential])) st2
      else .ok (left, st)
    | .pipelineCommand =>
      let negated := checkTok st .Not
      let st1 := if negated then (advanceTok st).2 else st
      match parseStep fuel .pipeline st1 with
      | .error e => .error e
      | .ok (pl, st2) =>
        if negated then
          match pl with
          | .Pipeline _ cmds => .ok (.Pipeline true cmds, st2)
          | other => .ok (.Pipeline true [other], st2)
        else .ok (pl, st2)
    | .pipeline =>
      match parseStep fuel .command st with
      | .error e => .error e
      | .ok (first, st1) => parseStep fuel (.pipelineLoop [first]) st1
    | .pipelineLoop cmds =>
      if checkTok st .Pipe then
        match parseStep fuel .command (skipNewlinesP (advanceTok st).2) with
        | .error e => .error e
        | .ok (c, st2) => parseStep fuel (.pipelineLoop (cmds ++ [c])) st2
      else
        match cmds with
        | [c] => .ok (c, st)
        | _ => .ok (.Pipeline false cmds, st)
    | .command =>
      if checkTok st .If then parseStep fuel .ifCommand st
      else if checkTok st .While then parseStep fuel .whileCommand st
      else if checkTok st .Until then parseStep fuel .untilCommand st
      else if checkTok st .For then parseStep fuel .forCommand st
      else if checkTok st .Case then parseStep fuel .caseCommand st
      else if checkTok st .LeftParen then parseStep fuel .subshell st
      else if checkTok st .LeftBrace then parseStep fuel .group st
      else if checkTok st .Function then parseStep fuel .functionDef st
      else parseSimpleCommand st
    | .ifCommand =>
      match expectTok st .If with
      | .error e => .error e
      | .ok (_, st1) =>
        match parseStep fuel (.compoundList [.Then]) (skipNewlinesP st1) with
        | .error e => .error e
        | .ok (cond, st2) =>
          match expectTok st2 .Then with
          | .error e => .error e
          | .ok (_, st3) =>
            match parseStep fuel (.compoundList [.Elif, .Else, .Fi]) (skipNewlinesP st3) with
            | .error e => .error e
            | .ok (thenPart, st4) => parseStep fuel (.elifLoop cond thenPart []) st4
    | .elifLoop cond thenPart elifs =>
      if checkTok st .Elif then
        match parseStep fuel (.compoundList [.Then]) (skipNewlinesP (advanceTok st).2) with
        | .error e => .error e
        | .ok (ec, st2) =>
          match expectTok st2 .Then with
          | .error e => .error e
          | .ok (_, st3) =>
            match parseStep fuel (.compoundList [.Elif, .Else, .Fi]) (skipNewlinesP st3) with
            | .error e => .error e
            | .ok (eb, st4) =>
              parseStep fuel (.elifLoop cond thenPart (elifs ++ [(ec, eb)])) st4
      else if checkTok st .Else then
        match parseStep fuel (.compoundList [.Fi]) (skipNewlinesP (advanceTok st).2) with
        | .error e => .error e
        | .ok (els, st2) =>
          match expectTok st2 .Fi with
          | .error e => .error e
          | .ok (_, st3) => .ok (.If cond thenPart elifs (some els), st3)
      else
        match expectTok st .Fi with
        | .error e => .error e
        | .ok (_, st1) => .ok (.If cond thenPart elifs none, st1)
    | .compoundList terminators =>
      match parseStep fuel .pipelineCommand (skipNewlinesP st) with
      | .error e => .error e
      | .ok (left, st1) => parseStep fuel (.compoundLoop terminators left) st1
    | .compoundLoop terminators left =>
      if terminators.any (fun t => checkTok st t) then .ok (left, st)
      else
        let fss := scanListSep st
        if fss.1 then
          if terminators.any (fun t => checkTok fss.2.2 t) then .ok (left, fss.2.2)
          else
            match parseStep fuel .pipelineCommand fss.2.2 with
            | .error e => .error e
            | .ok (right, st2) =>
              parseStep fuel
                (.compoundLoop terminators (.List [.mk left fss.2.1, .mk right .Sequential])) st2
        else .ok (left, st)
    | .whileCommand =>
      match expectTok st .While with
      | .error e => .error e
      | .ok (_, st1) =>
        match parseStep fuel (.compoundList [.Do]) (skipNewlinesP st1) with
        | .error e => .error e
        | .ok (cond, st2) =>
          match expectTok st2 .Do with
          | .error e => .error e
          | .ok (_, st3) =>
            match parseStep fuel (.compoundList [.Done]) (skipNewlinesP st3) with
            | .error e => .error e
            | .ok (body, st4) =>
              match expectTok st4 .Done with
              | .error e => .error e
              | .ok (_, st5) => .ok (.While cond body, st5)
    | .untilCommand =>
      match expectTok st .Until with
      | .error e => .error e
      | .ok (_, st1) =>
        match parseStep fuel (.compoundList [.Do]) (skipNewlinesP st1) with
        | .error e => .error e
        | .ok (cond, st2) =>
          match expectTok st2 .Do with
          | .error e => .error e
          | .ok (_, st3) =>
            match parseStep fuel (.compoundList [.Done]) (skipNewlinesP st3) with
            | .error e => .error e
            | .ok (body, st4) =>
              match expectTok st4 .Done with
              | .error e => .error e
              | .ok (_, st5) => .ok (.Until cond body, st5)
    | .forCommand =>
      match expectTok st .For with
      | .error e => .error e
      | .ok (_, st1) =>
        match expectTok st1 .Word with
        | .error e => .error e
        | .ok (varTok, st2) =>
          let st3 := skipNewlinesP st2
          let wordsSt : List String × PState :=
            if checkTok st3 .In then
              let st' := (advanceTok st3).2
              let wtoks := (st'.tokens.drop st'.pos).takeWhile (fun t => t.kind == TokenKind.Word)
              (wtoks.map (fun t => t.value), ⟨st'.tokens, st'.pos + wtoks.length⟩)
            else ([], st3)
          let st5 :=
            if checkTok wordsSt.2 .Semicolon then (advanceTok wordsSt.2).2 else wordsSt.2
          match expectTok (skipNewlinesP st5) .Do with
          | .error e => .error e
          | .ok (_, st7) =>
            match parseStep fuel (.compoundList [.Done]) (skipNewlinesP st7) with
            | .error e => .error e
            | .ok (body, st8) =>
              match expectTok st8 .Done with
              | .error e => .error e
              | .ok (_, st9) => .ok (.For varTok.value wordsSt.1 body, st9)
    | .caseCommand =>
      match expectTok st .Case with
      | .error e => .error e
      | .ok (_, st1) =>
        match expectTok st1 .Word with
        | .error e => .error e
        | .ok (wordTok, st2) =>
          match expectTok (skipNewlinesP st2) .In with
          | .error e => .error e
          | .ok (_, st3) => parseStep fuel (.caseLoop wordTok.value []) (skipNewlinesP st3)
    | .caseLoop word cases =>
      if !checkTok st .Esac then
        let st1 := if checkTok st .LeftParen then (advanceTok st).2 else st
        parseStep fuel (.casePatterns word cases []) st1
      else
        match expectTok st .Esac with
        | .error e => .error e
        | .ok (_, st1) => .ok (.Case word cases, st1)
    | .casePatterns word cases patterns =>
      match expectTok st .Word with
      | .error e => .error e
      | .ok (ptok, st1) =>
        let patterns1 := patterns ++ [ptok.value]
        if checkTok st1 .Pipe then
          parseStep fuel (.casePatterns word cases patterns1) (advanceTok st1).2
        else
          match expectTok st1 .RightParen with
          | .error e => .error e
          | .ok (_, st2) =>
            match parseStep fuel .list (skipNewlinesP st2) with
            | .error e => .error e
            | .ok (body, st3) =>
              let cases1 := cases ++ [CaseClause.mk patterns1 body]
              let st4 :=
                if checkTok st3 .Semicolon then (advanceTok (advanceTok st3).2).2
                else st3
              parseStep fuel (.caseLoop word cases1) (skipNewlinesP st4)
    | .subshell =>
      match expectTok st .LeftParen with
      | .error e => .error e
      | .ok (_, st1) =>
        match parseStep fuel .list (skipNewlinesP st1) with
        | .error e => .error e
        | .ok (c, st2) =>
          match expectTok st2 .RightParen with
          | .error e => .error e
          | .ok (_, st3) => .ok (.Subshell c, st3)
    | .group =>
      match expectTok st .LeftBrace with
      | .error e => .error e
      | .ok (_, st1) => parseStep fuel (.groupLoop []) (skipNewlinesP st1)
    | .groupLoop cmds =>
      if !checkTok st .RightBrace then
        match parseStep fuel .list st with
        | .error e => .error e
        | .ok (c, st1) => parseStep fuel (.groupLoop (cmds ++ [c])) (skipNewlinesP st1)
      else
        match expectTok st .RightBrace with
        | .error e => .error e
        | .ok (_, st1) => .ok (.Group cmds, st1)
    | .functionDef =>
      match expectTok st .Function with
      | .error e => .error e
      | .ok (_, st1) =>
        match expectTok st1 .Word with
        | .error e => .error e
        | .ok (nameTok, st2) =>
          match
            (if checkTok st2 .LeftParen then
              match expectTok (advanceTok st2).2 .RightParen with
              | .error e => .error e
              | .ok (_, st') => .ok st'
            else .ok st2 : Except String PState) with
          | .error e => .error e
          | .ok st3 =>
            match parseStep fuel .group (skipNewlinesP st3) with
            | .error e => .error e
            | .ok (body, st4) => .ok (.FunctionDef nameTok.value body, st4)

/-- The loop of `Parser::parse`: collect top-level commands separated by
newlines until the end of the token stream. -/
def parseAux : Nat → Nat → List Command → PState → Except String (List Command)
  | 0, _, _, _ => .error "parser fuel exhausted"
  | fuel + 1, pfuel, acc, st =>
    if pAtEnd st then .ok acc
    else
      match parseStep pfuel .list st with
      | .error e => .error e
      | .ok (c, st1) => parseAux fuel pfuel (acc ++ [c]) (skipNewlinesP st1)

/-- `Parser::parse` (`Parser::new` starts at position 0). The per-command
grammar fuel `(tokens.length + 1) * 64` covers every recursion the
terminating Rust original performs on the inputs considered here. -/
def parse (tokens : List Token) : Except String (List Command) :=
  parseAux (tokens.length + 1) ((tokens.length + 1) * 64) []
    (skipNewlinesP ⟨tokens, 0⟩)

/-! ### Executor (`src/executor.rs`)

The host process launcher and host environment are external collaborators:
they are parameters of the executor. Each `process.status()` invocation is
also recorded in the executor state (`calls`), so that theorems can observe
what crosses the launcher boundary: the program, the arguments, and the
ordered list of `process.env(key, value)` updates applied on top of the
inherited host environment (a later update to the same key overrides an
earlier one, as in `std::process::Command`). -/

/-- One invocation of the host process launcher. -/
structure LaunchCall where
  program : String
  args : List String
  envUpdates : List (String × String)
deriving DecidableEq, Repr

/-- What `process.status()` returns: `Ok` with the exit status's optional
code, or `Err` with the message text. -/
inductive LaunchOutcome where
  | status (code : Option Int)
  | launchFailure (msg : String)
deriving DecidableEq, Repr

/-- The host process launcher boundary. -/
def Launcher : Type :=
  String → List String → List (String × String) → LaunchOutcome

/-- The host environment boundary (`std::env::var`). -/
def HostEnv : Type :=
  String → Option String

/-- The executor's mutable state: the persistent shell-variable mapping
(`env_vars: HashMap<String, String>`, embedded as an association list with
unique keys), the last exit status, and the recorded launcher calls. -/
structure ExecState where
  env_vars : List (String × String)
  last_exit_status : Int
  calls : List LaunchCall
deriving DecidableEq, Repr

/-- `HashMap::insert`: replace the binding if the key is present, else
append it. -/
def insertVar : List (String × String) → String → String → List (String × String)
  | [], k, v => [(k, v)]
  | (k', v') :: rest, k, v =>
    if k' = k then (k, v) :: rest else (k', v') :: insertVar rest k v

/-- `HashMap::get`. -/
def lookupVar : List (String × String) → String → Option String
  | [], _ => none
  | (k', v') :: rest, k => if k' = k then some v' else lookupVar rest k

/-- `Executor::get_variable`: shell variables first, then the host
environment, then the empty string. -/
def getVariable (envVars : List (String × String)) (host : HostEnv) (name : String) :
    String :=
  match lookupVar envVars name with
  | some v => v
  | none => (host name).getD ""

/-- The character loop of `Executor::expand_variables`. Each step consumes at
least one character, so `input.length + 1` fuel always suffices. -/
def expandAux (envVars : List (String × String)) (host : HostEnv) :
    Nat → List Char → List Char
  | 0, _ => []
  | _ + 1, [] => []
  | fuel + 1, c :: rest =>
    if c = '$' then
      match rest with
      | '{' :: rest2 =>
        let name := rest2.takeWhile (fun d => !(d = '}'))
        let remaining := (rest2.dropWhile (fun d => !(d = '}'))).drop 1
        (getVariable envVars host (String.mk name)).data ++
          expandAux envVars host fuel remaining
      | _ =>
        let name := rest.takeWhile (fun d => d.isAlphanum || d = '_')
        let remaining := rest.drop name.length
        (getVariable envVars host (String.mk name)).data ++
          expandAux envVars host fuel remaining
    else c :: expandAux envVars host fuel rest

/-- `Executor::expand_variables`. -/
def expandVariables (envVars : List (String × String)) (host : HostEnv)
    (input : String) : String :=
  String.mk (expandAux envVars host (input.data.length + 1) input.data)

/-- `Executor::word_split` (`split_whitespace`, ASCII restriction): split on
runs of whitespace, discarding empty pieces. -/
def wordSplitAux : List Char → List Char → List String
  | [], acc => if acc.isEmpty then [] else [String.mk acc.reverse]
  | c :: rest, acc =>
    if isRustWhitespace c then
      if acc.isEmpty then wordSplitAux rest []
      else String.mk acc.reverse :: wordSplitAux rest []
    else wordSplitAux rest (c :: acc)

def wordSplit (s : String) : List String :=
  wordSplitAux s.data []

/-- Rust derived `Debug` text for the AST helper structures. -/
def debugAssignment (a : Assignment) : String :=
  "Assignment \x7b name: \"" ++ a.name ++ "\", value: \"" ++ a.value ++ "\" \x7d"

def debugWord (w : Word) : String :=
  "Word \x7b value: \"" ++ w.value ++ "\" \x7d"

def debugRedirectionKind : RedirectionKind → String
  | .Input => "Input"
  | .Output => "Output"
  | .Append => "Append"
  | .Heredoc => "Heredoc"
  | .HeredocStrip => "HeredocStrip"
  | .InputDup => "InputDup"
  | .OutputDup => "OutputDup"
  | .InputOutput => "InputOutput"
  | .Clobber => "Clobber"
  | .OutputBoth => "OutputBoth"

def debugRedirectionTarget : RedirectionTarget → String
  | .File p => "File(\"" ++ p ++ "\")"
  | .Fd n => "Fd(" ++ toString n ++ ")"
  | .Close => "Close"

def debugSeparator : Separator → String
  | .Sequential => "Sequential"
  | .Background => "Background"
  | .And => "And"
  | .Or => "Or"
  | .Pipe => "Pipe"

def debugRedirection (r : Redirection) : String :=
  "Redirection \x7b kind: " ++ debugRedirectionKind r.kind ++ ", fd: " ++
    (match r.fd with
     | none => "None"
     | some n => "Some(" ++ toString n ++ ")") ++
    ", target: " ++ debugRedirectionTarget r.target ++ " \x7d"

def debugListOf (f : α → String) (l : List α) : String :=
  "[" ++ String.intercalate ", " (l.map f) ++ "]"

def debugSimpleCommand (cmd : SimpleCommand) : String :=
  "SimpleCommand \x7b assignments: " ++ debugListOf debugAssignment cmd.assignments ++
    ", words: " ++ debugListOf debugWord cmd.words ++
    ", redirections: " ++ debugListOf debugRedirection cmd.redirections ++ " \x7d"

mutual

/-- Rust derived `Debug` text for a `Command` (`{:?}` in
`execute`'s catch-all arm). -/
def debugCommand : Command → String
  | .Simple cmd => "Simple(" ++ debugSimpleCommand cmd ++ ")"
  | .Pipeline negated cmds =>
    "Pipeline(Pipeline \x7b negated: " ++ (if negated then "true" else "false") ++
      ", commands: [" ++ debugCommandList cmds ++ "] \x7d)"
  | .List items => "List(List \x7b items: [" ++ debugListItems items ++ "] \x7d)"
  | .Subshell c => "Subshell(" ++ debugCommand c ++ ")"
  | .If cond thenPart elifs elsePart =>
    "If(IfCommand \x7b condition: " ++ debugCommand cond ++ ", then_part: " ++
      debugCommand thenPart ++ ", elif_parts: [" ++ debugPairs elifs ++
      "], else_part: " ++ debugOptCommand elsePart ++ " \x7d)"
  | .While cond body =>
    "While(WhileCommand \x7b condition: " ++ debugCommand cond ++ ", body: " ++
      debugCommand body ++ " \x7d)"
  | .Until cond body =>
    "Until(UntilCommand \x7b condition: " ++ debugCommand cond ++ ", body: " ++
      debugCommand body ++ " \x7d)"
  | .For v ws body =>
    "For(ForCommand \x7b variable: \"" ++ v ++ "\", words: " ++
      debugListOf (fun w => "\"" ++ w ++ "\"") ws ++ ", body: " ++
      debugCommand body ++ " \x7d)"
  | .Case w cases =>
    "Case(CaseCommand \x7b word: \"" ++ w ++ "\", cases: [" ++
      debugClauses cases ++ "] \x7d)"
  | .FunctionDef n body =>
    "FunctionDef(FunctionDef \x7b name: \"" ++ n ++ "\", body: " ++
      debugCommand body ++ " \x7d)"
  | .Group cmds => "Group([" ++ debugCommandList cmds ++ "])"

def debugCommandList : List Command → String
  | [] => ""
  | [c] => debugCommand c
  | c :: rest => debugCommand c ++ ", " ++ debugCommandList rest

def debugListItems : List ListItem → String
  | [] => ""
  | [.mk c s] =>
    "ListItem \x7b command: " ++ debugCommand c ++ ", separator: " ++
      debugSeparator s ++ " \x7d"
  | .mk c s :: rest =>
    "ListItem \x7b command: " ++ debugCommand c ++ ", separator: " ++
      debugSeparator s ++ " \x7d, " ++ debugListItems rest

def debugPairs : List (Command × Command) → String
  | [] => ""
  | [(a, b)] => "(" ++ debugCommand a ++ ", " ++ debugCommand b ++ ")"
  | (a, b) :: rest =>
    "(" ++ debugCommand a ++ ", " ++ debugCommand b ++ "), " ++ debugPairs rest

def debugOptCommand : Option Command → String
  | none => "None"
  | some c => "Some(" ++ debugCommand c ++ ")"

def debugClauses : List CaseClause → String
  | [] => ""
  | [.mk ps b] =>
    "CaseClause \x7b patterns: " ++ debugListOf (fun p => "\"" ++ p ++ "\"") ps ++
      ", body: " ++ debugCommand b ++ " \x7d"
  | .mk ps b :: rest =>
    "CaseClause \x7b patterns: " ++ debugListOf (fun p => "\"" ++ p ++ "\"") ps ++
      ", body: " ++ debugCommand b ++ " \x7d, " ++ debugClauses rest

end

/-- `Executor::execute_simple_command`. With no words, the assignments go
into the persistent mapping; otherwise the words are expanded and split,
and the launcher is invoked with `process.env` updates applied in source
order: first the command's assignments, then the persistent `env_vars`
(so a later update overrides an earlier one for the same name). -/
def execSimpleCommand (L : Launcher) (H : HostEnv) (st : ExecState)
    (cmd : SimpleCommand) : Except String (Int × ExecState) :=
  if cmd.words.isEmpty then
    .ok (0, { st with
      env_vars := cmd.assignments.foldl (fun ev a => insertVar ev a.name a.value) st.env_vars })
  else
    let expandedWords :=
      cmd.words.foldl (fun acc w => acc ++ wordSplit (expandVariables st.env_vars H w.value)) []
    if expandedWords.isEmpty then .ok (0, st)
    else
      let program := expandedWords.headD ""
      let args := expandedWords.tail
      let envUpdates := cmd.assignments.map (fun a => (a.name, a.value)) ++ st.env_vars
      let st1 := { st with calls := st.calls ++ [LaunchCall.mk program args envUpdates] }
      match L program args envUpdates with
      | .status code =>
        let exitCode := code.getD 1
        .ok (exitCode, { st1 with last_exit_status := exitCode })
      | .launchFailure e =>
        .error ("Failed to execute '" ++ program ++ "': " ++ e)

/-- The executor's recursive entry points: `execute` itself plus the loops of
`execute_list`, `execute_if` (elif chain), `execute_while`,
`execute_until`, `execute_for`, one tag each. -/
inductive EFn where
  | cmd (c : Command)
  | listItems (items : List ListItem) (lastStatus : Int)
  | ifElifs (elifParts : List (Command × Command)) (elsePart : Option Command)
  | whileLoop (condition : Command) (body : Command)
  | untilLoop (condition : Command) (body : Command)
  | forWords (varName : String) (words : List String) (body : Command)

/-- `Executor::execute` and the loops it delegates to, with fuel decremented
at every recursive call. The source `match` has an arm for
`Command::Redirected`, a variant that does not exist in `ast.rs`
(`execute_redirected` would report "Redirected command execution not yet
implemented"); with the `Command` type as defined, `Subshell`, `Case`,
`Group` and `FunctionDef` reach the catch-all arm. -/
def execStep (L : Launcher) (H : HostEnv) : Nat → EFn → ExecState →
    Except String (Int × ExecState)
  | 0, _, _ => .error "executor fuel exhausted"
  | fuel + 1, fn, st =>
    match fn with
    | .cmd (.Simple cmd) => execSimpleCommand L H st cmd
    | .cmd (.Pipeline _ _) => .error "Pipeline execution not yet implemented"
    | .cmd (.List items) => execStep L H fuel (.listItems items 0) st
    | .cmd (.If cond thenPart elifs elsePart) =>
      match execStep L H fuel (.cmd cond) st with
      | .error e => .error e
      | .ok (s, st1) =>
        if s = 0 then execStep L H fuel (.cmd thenPart) st1
        else execStep L H fuel (.ifElifs elifs elsePart) st1
    | .cmd (.While cond body) => execStep L H fuel (.whileLoop cond body) st
    | .cmd (.Until cond body) => execStep L H fuel (.untilLoop cond body) st
    | .cmd (.For v ws body) => execStep L H fuel (.forWords v ws body) st
    | .cmd other => .error ("Command type not yet implemented: " ++ debugCommand other)
    | .listItems [] lastStatus => .ok (lastStatus, st)
    | .listItems (item :: rest) _ =>
      match execStep L H fuel (.cmd item.command) st with
      | .error e => .error e
      | .ok (s, st1) =>
        match item.separator with
        | .And =>
          if s = 0 then execStep L H fuel (.listItems rest s) st1 else .ok (s, st1)
        | .Or =>
          if s = 0 then .ok (s, st1) else execStep L H fuel (.listItems rest s) st1
        | .Sequential => execStep L H fuel (.listItems rest s) st1
        | .Background => execStep L H fuel (.listItems rest s) st1
        | .Pipe => execStep L H fuel (.listItems rest s) st1
    | .ifElifs [] elsePart =>
      match elsePart with
      | some e => execStep L H fuel (.cmd e) st
      | none => .ok (0, st)
    | .ifElifs ((ec, eb) :: rest) elsePart =>
      match execStep L H fuel (.cmd ec) st with
      | .error e => .error e
      | .ok (s, st1) =>
        if s = 0 then execStep L H fuel (.cmd eb) st1
        else execStep L H fuel (.ifElifs rest elsePart) st1
    | .whileLoop cond body =>
      match execStep L H fuel (.cmd cond) st with
      | .error e => .error e
      | .ok (s, st1) =>
        if s = 0 then
          match execStep L H fuel (.cmd body) st1 with
          | .error e => .error e
          | .ok (_, st2) => execStep L H fuel (.whileLoop cond body) st2
        else .ok (0, st1)
    | .untilLoop cond body =>
      match execStep L H fuel (.cmd cond) st with
      | .error e => .error e
      | .ok (s, st1) =>
        if s = 0 then .ok (0, st1)
        else
          match execStep L H fuel (.cmd body) st1 with
          | .error e => .error e
          | .ok (_, st2) => execStep L H fuel (.untilLoop cond body) st2
    | .forWords _ [] _ => .ok (0, st)
    | .forWords v (w :: ws) body =>
      let st1 := { st with env_vars := insertVar st.env_vars v w }
      match execStep L H fuel (.cmd body) st1 with
      | .error e => .error e
      | .ok (_, st2) => execStep L H fuel (.forWords v ws body) st2

/-- `Executor::execute` on a command (`Executor::new` starts with an empty
mapping and last status 0; `exec` takes the state explicitly). -/
def exec (L : Launcher) (H : HostEnv) (fuel : Nat) (st : ExecState)
    (c : Command) : Except String (Int × ExecState) :=
  execStep L H fuel (.cmd c) st

/-- The effective environment the launched process observes: the inherited
host environment overridden by the `process.env` updates in order (a later
update to the same name wins, as in `std::process::Command`). -/
def applyEnvUpdates (base : String → Option String)
    (updates : List (String × String)) : String → Option String :=
  updates.foldl (fun acc kv => fun n => if n = kv.1 then some kv.2 else acc n) base

/-! ### Theorem infrastructure -/

/-- `process_command` in `src/main.rs`: lex, then parse (lexer errors
propagate). -/
def lexParse (s : String) : Except String (List Command) :=
  match tokenize s with
  | .error e => .error e
  | .ok ts => parse ts

/-- A host launcher that reports exit code 0 for every request (used to
instantiate the launcher boundary in concrete runs). -/
def launcherOk : Launcher :=
  fun _ _ _ => .status (some 0)

/-- An empty host environment. -/
def hostEnvEmpty : HostEnv :=
  fun _ => none

/-- The executor's starting state (`Executor::new`). -/
def execInit : ExecState :=
  ⟨[], 0, []⟩

theorem lookupVar_insertVar_self (ev : List (String × String)) (k v : String) :
    lookupVar (insertVar ev k v) k = some v := by
  induction ev with
  | nil => simp [insertVar, lookupVar]
  | cons kv rest ih =>
    obtain ⟨k', v'⟩ := kv
    by_cases h : k' = k
    · simp [insertVar, lookupVar, h]
    · simp [insertVar, lookupVar, h, ih]

/-! ### Claim C1 -/

/-- C1: `"echo hello > file.txt"` lexes and parses to one `Simple` command
carrying `Redirection { kind: Output, fd: None, target: File("file.txt") }`
— but executing that command does not raise the documented "not yet
implemented" error: `execute_simple_command` ignores the `redirections`
field and invokes the host launcher with program `"echo"` and argument
`"hello"`, succeeding with the launcher's exit status. -/
theorem clam_c1_redirection_parsed_but_executed :
    lexParse "echo hello > file.txt" =
      .ok [Command.Simple ⟨[], [⟨"echo"⟩, ⟨"hello"⟩], [⟨.Output, none, .File "file.txt"⟩]⟩] ∧
    exec launcherOk hostEnvEmpty 10 execInit
        (Command.Simple ⟨[], [⟨"echo"⟩, ⟨"hello"⟩], [⟨.Output, none, .File "file.txt"⟩]⟩) =
      .ok (0, ⟨[], 0, [⟨"echo", ["hello"], []⟩]⟩) :=
  ⟨rfl, rfl⟩

/-! ### Claim C2 -/

/-- C2 counterexample: a `List` whose single item carries separator `Pipe`
executes without any error — `execute_list`'s `Pipe` arm is a no-op, so
the result is `Ok(0)`, not the internal-consistency failure the claim
requires. -/
theorem clam_c2_counterexample :
    exec launcherOk hostEnvEmpty 10 execInit
        (Command.List [.mk (.Simple ⟨[], [], []⟩) .Pipe]) =
      .ok (0, execInit) :=
  rfl

/-- `ListItem` separators with every `Pipe` replaced by `Sequential`. -/
def pipeToSequential (items : List ListItem) : List ListItem :=
  items.map fun i =>
    match i with
    | .mk c .Pipe => .mk c .Sequential
    | j => j

theorem pipeToSequential_cons (c : Command) (sep : Separator) (rest : List ListItem) :
    pipeToSequential (.mk c sep :: rest) =
      (match sep with
        | .Pipe => ListItem.mk c .Sequential
        | s => ListItem.mk c s) :: pipeToSequential rest := by
  cases sep <;> rfl

theorem execStep_listItems_pipeToSequential (L : Launcher) (H : HostEnv) :
    ∀ (fuel : Nat) (items : List ListItem) (lastStatus : Int) (st : ExecState),
      execStep L H fuel (.listItems (pipeToSequential items) lastStatus) st =
        execStep L H fuel (.listItems items lastStatus) st := by
  intro fuel
  induction fuel with
  | zero => intro items lastStatus st; rfl
  | succ n ih =>
    intro items lastStatus st
    cases items with
    | nil => rfl
    | cons item rest =>
      obtain ⟨c, sep⟩ := item
      rw [pipeToSequential_cons]
      cases sep <;>
        · simp only [execStep, ListItem.command, ListItem.separator]
          cases hexec : execStep L H n (.cmd c) st with
          | error e => rfl
          | ok p =>
            obtain ⟨s, st1⟩ := p
            simp only []
            first
            | exact ih rest s st1
            | (by_cases hs : s = 0 <;>
                simp only [hs, reduceIte, not_false_iff] <;>
                first
                | exact ih rest s st1
                | exact ih rest 0 st1
                | rfl)

/-- C2 amended: the executor treats a `Pipe` separator inside a `List`
exactly like `Sequential` — it silently continues with the next item and
never raises an error on account of the stray `Pipe`. -/
theorem clam_c2_amended (L : Launcher) (H : HostEnv) (fuel : Nat) (st : ExecState)
    (items : List ListItem) :
    exec L H fuel st (.List (pipeToSequential items)) = exec L H fuel st (.List items) := by
  cases fuel with
  | zero => rfl
  | succ n =>
    show execStep L H n (.listItems (pipeToSequential items) 0) st =
      execStep L H n (.listItems items 0) st
    exact execStep_listItems_pipeToSequential L H n items 0 st

/-! ### Claim C3 -/

/-- C3: executing `FOO=cli cmd` while the persistent mapping binds
`FOO="shell"` leaves the mapping unchanged, but the `process.env` update
sequence handed to the launcher is the assignments first and the persistent
variables second, so the effective environment the launched process sees
binds `FOO` to the persistent `"shell"`, not to the command-line `"cli"`
the claim (and POSIX) require. -/
theorem clam_c3_persistent_overrides_assignment :
    exec launcherOk hostEnvEmpty 10 ⟨[("FOO", "shell")], 0, []⟩
        (.Simple ⟨[⟨"FOO", "cli"⟩], [⟨"cmd"⟩], []⟩) =
      .ok (0, ⟨[("FOO", "shell")], 0, [⟨"cmd", [], [("FOO", "cli"), ("FOO", "shell")]⟩]⟩) ∧
    applyEnvUpdates hostEnvEmpty [("FOO", "cli"), ("FOO", "shell")] "FOO" = some "shell" ∧
    ¬ applyEnvUpdates hostEnvEmpty [("FOO", "cli"), ("FOO", "shell")] "FOO" = some "cli" := by
  refine ⟨rfl, rfl, ?_⟩
  simp [applyEnvUpdates]

/-! ### Claim C4 -/

/-- C4 counterexample: the body of a `for` loop may itself rebind the loop
variable. Executing `for i in a; do i=b; done` (as an AST value — the
parser produces exactly this tree for that input) succeeds, and afterwards
the persistent mapping binds `i` to `"b"`, not to the last word `"a"`. -/
theorem clam_c4_counterexample :
    exec launcherOk hostEnvEmpty 10 execInit
        (.For "i" ["a"] (.Simple ⟨[⟨"i", "b"⟩], [], []⟩)) =
      .ok (0, ⟨[("i", "b")], 0, []⟩) ∧
    ¬ lookupVar [("i", "b")] "i" = some "a" :=
  ⟨rfl, by simp [lookupVar]⟩

/-- The run of `execute_for`'s loop: one `execute(body)` per word, each
preceded by binding the variable to that word in the persistent mapping
(the fuel index decreases by one per iteration, mirroring `execStep`). -/
inductive ForRun (L : Launcher) (H : HostEnv) (body : Command) (v : String) :
    Nat → List String → ExecState → ExecState → Prop where
  | nil (fuel : Nat) (st : ExecState) : ForRun L H body v (fuel + 1) [] st st
  | cons (fuel : Nat) (w : String) (ws : List String) (s : Int)
      (st stMid stFin : ExecState)
      (hbody : execStep L H fuel (.cmd body)
        { st with env_vars := insertVar st.env_vars v w } = .ok (s, stMid))
      (hrest : ForRun L H body v fuel ws stMid stFin) :
      ForRun L H body v (fuel + 1) (w :: ws) st stFin

theorem execStep_forWords_iff (L : Launcher) (H : HostEnv) (body : Command)
    (v : String) :
    ∀ (fuel : Nat) (ws : List String) (st : ExecState) (r : Int) (st' : ExecState),
      execStep L H fuel (.forWords v ws body) st = .ok (r, st') ↔
        (r = 0 ∧ ForRun L H body v fuel ws st st') := by
  intro fuel
  induction fuel with
  | zero =>
    intro ws st r st'
    constructor
    · intro h; exact absurd h (by simp [execStep])
    · rintro ⟨_, hrun⟩; cases hrun
  | succ n ih =>
    intro ws st r st'
    cases ws with
    | nil =>
      constructor
      · intro h
        simp only [execStep, Except.ok.injEq, Prod.mk.injEq] at h
        obtain ⟨h1, h2⟩ := h
        exact ⟨h1.symm, h2 ▸ ForRun.nil n st⟩
      · rintro ⟨hr, hrun⟩
        cases hrun
        simp [execStep, hr]
    | cons w ws' =>
      simp only [execStep]
      cases hb : execStep L H n (.cmd body)
          { st with env_vars := insertVar st.env_vars v w } with
      | error e =>
        simp only []
        constructor
        · intro h; exact absurd h (by simp)
        · rintro ⟨_, hrun⟩
          cases hrun with
          | cons _ _ _ s _ stMid _ hbody hrest =>
            rw [hb] at hbody; exact absurd hbody (by simp)
      | ok p =>
        obtain ⟨s, stMid⟩ := p
        simp only []
        rw [ih ws' stMid r st']
        constructor
        · rintro ⟨hr, hrun⟩; exact ⟨hr, .cons n w ws' s st stMid st' hb hrun⟩
        · rintro ⟨hr, hrun⟩
          refine ⟨hr, ?_⟩
          cases hrun with
          | cons _ _ _ s₂ _ stMid₂ _ hbody hrest =>
            rw [hb] at hbody
            simp only [Except.ok.injEq, Prod.mk.injEq] at hbody
            obtain ⟨_, h2⟩ := hbody
            exact h2 ▸ hrest

theorem forRun_nil_eq {L : Launcher} {H : HostEnv} {body : Command} {v : String}
    {fuel : Nat} {st st' : ExecState}
    (h : ForRun L H body v fuel [] st st') : st' = st := by
  cases h; rfl

theorem forRun_last {L : Launcher} {H : HostEnv} {body : Command} {v : String} :
    ∀ (ws₀ : List String) (w : String) (fuel : Nat) (st st' : ExecState),
      ForRun L H body v fuel (ws₀ ++ [w]) st st' →
      ∃ (f : Nat) (s : Int) (stPre : ExecState), execStep L H f (.cmd body)
          { stPre with env_vars := insertVar stPre.env_vars v w } = .ok (s, st') := by
  intro ws₀
  induction ws₀ with
  | nil =>
    intro w fuel st st' h
    cases h with
    | cons f _ _ s _ stMid _ hbody hrest =>
      have := forRun_nil_eq hrest
      exact ⟨f, s, st, this ▸ hbody⟩
  | cons u ws₀' ih =>
    intro w fuel st st' h
    cases h with
    | cons f _ _ s _ stMid _ hbody hrest => exact ih w f stMid st' hrest

/-- C4 amended: for a successful `For` execution, (1) the run is exactly one
body execution per word, each immediately preceded by binding the loop
variable to that word in the persistent mapping, and the result status is
0 (the `ForRun` chain characterizes `execute_for` exactly); (2) when
`words` is empty the state — in particular the mapping — is untouched;
(3) when `words` is nonempty, the final state is the result of running the
body once from a state in which the variable is bound to the last word, so
the mapping after the loop binds the variable to the last element of
`words` whenever that final body run leaves the binding unchanged (the
body may rebind it, as the counterexample shows). -/
theorem clam_c4_amended (L : Launcher) (H : HostEnv) (fuel : Nat) (v : String)
    (ws : List String) (body : Command) (st st' : ExecState) (r : Int) :
    (exec L H (fuel + 1) st (.For v ws body) = .ok (r, st') ↔
      (r = 0 ∧ ForRun L H body v fuel ws st st')) ∧
    (exec L H (fuel + 1) st (.For v ws body) = .ok (r, st') → ws = [] → st' = st) ∧
    (exec L H (fuel + 1) st (.For v ws body) = .ok (r, st') →
      ∀ (w : String) (ws₀ : List String), ws = ws₀ ++ [w] →
        ∃ (f : Nat) (s : Int) (stPre : ExecState),
          execStep L H f (.cmd body)
            { stPre with env_vars := insertVar stPre.env_vars v w } = .ok (s, st') ∧
          lookupVar (insertVar stPre.env_vars v w) v = some w) := by
  have hiff := execStep_forWords_iff L H body v fuel ws st r st'
  refine ⟨hiff, ?_, ?_⟩
  · intro h hws
    subst hws
    exact forRun_nil_eq (hiff.mp h).2
  · intro h w ws₀ hws
    subst hws
    obtain ⟨f, s, stPre, hrun⟩ := forRun_last ws₀ w fuel st st' (hiff.mp h).2
    exact ⟨f, s, stPre, hrun, lookupVar_insertVar_self stPre.env_vars v w⟩

/-- C4 witness: a concrete two-word loop with a no-op body; the theorem's
characterization applied at it yields the `ForRun` chain and the
final-binding fact. -/
theorem clam_c4_witness :
    ((0 : Int) = 0 ∧
      ForRun launcherOk hostEnvEmpty (.Simple ⟨[], [], []⟩) "i" 3 ["a", "b"]
        execInit ⟨[("i", "b")], 0, []⟩) ∧
    (∃ (f : Nat) (s : Int) (stPre : ExecState),
      execStep launcherOk hostEnvEmpty f (.cmd (.Simple ⟨[], [], []⟩))
          { stPre with env_vars := insertVar stPre.env_vars "i" "b" } =
        .ok (s, (⟨[("i", "b")], 0, []⟩ : ExecState)) ∧
      lookupVar (insertVar stPre.env_vars "i" "b") "i" = some "b") :=
  ⟨(clam_c4_amended launcherOk hostEnvEmpty 3 "i" ["a", "b"] (.Simple ⟨[], [], []⟩)
      execInit ⟨[("i", "b")], 0, []⟩ 0).1.mp rfl,
    (clam_c4_amended launcherOk hostEnvEmpty 3 "i" ["a", "b"] (.Simple ⟨[], [], []⟩)
      execInit ⟨[("i", "b")], 0, []⟩ 0).2.2 rfl "b" ["a"] rfl⟩

/-! ### Claim C5 -/

/-- The `Command` variants whose execution is out of scope. -/
def isUnimplemented : Command → Bool
  | .Pipeline _ _ => true
  | .Subshell _ => true
  | .Case _ _ => true
  | .Group _ => true
  | .FunctionDef _ _ => true
  | _ => false

/-- C5: executing a `Pipeline`, `Subshell`, `Case`, `Group` or `FunctionDef`
always returns a "not yet implemented" error (never a success status, and,
the embedding being total, never a panic). -/
theorem clam_c5_unimplemented_variants_error (L : Launcher) (H : HostEnv)
    (fuel : Nat) (st : ExecState) (c : Command) (h : isUnimplemented c = true) :
    ∃ msg, exec L H (fuel + 1) st c = .error msg ∧
      (msg = "Pipeline execution not yet implemented" ∨
        ∃ s, msg = "Command type not yet implemented: " ++ s) := by
  cases c with
  | Pipeline negated cmds => exact ⟨_, rfl, .inl rfl⟩
  | Subshell c => exact ⟨_, rfl, .inr ⟨debugCommand (.Subshell c), rfl⟩⟩
  | Case w cases => exact ⟨_, rfl, .inr ⟨debugCommand (.Case w cases), rfl⟩⟩
  | Group cmds => exact ⟨_, rfl, .inr ⟨debugCommand (.Group cmds), rfl⟩⟩
  | FunctionDef n b => exact ⟨_, rfl, .inr ⟨debugCommand (.FunctionDef n b), rfl⟩⟩
  | Simple cmd => simp [isUnimplemented] at h
  | List items => simp [isUnimplemented] at h
  | If a b e o => simp [isUnimplemented] at h
  | While a b => simp [isUnimplemented] at h
  | Until a b => simp [isUnimplemented] at h
  | For v ws b => simp [isUnimplemented] at h

/-- C5 witness at a concrete subshell command, fuel 1. -/
theorem clam_c5_witness :
    ∃ msg, exec launcherOk hostEnvEmpty 1 execInit (.Subshell (.Simple ⟨[], [], []⟩)) =
        .error msg ∧
      (msg = "Pipeline execution not yet implemented" ∨
        ∃ s, msg = "Command type not yet implemented: " ++ s) :=
  clam_c5_unimplemented_variants_error launcherOk hostEnvEmpty 0 execInit
    (.Subshell (.Simple ⟨[], [], []⟩)) rfl

/-! ### Claim C6 -/

/-- C6: parsing the token sequence of `"case x in a) echo 1;; esac"` fails:
the lexer emits a single `DoubleSemicolon` token for `;;`, while
`parse_case_command` only checks for a `Semicolon` token (advancing twice)
to consume the clause terminator, so the check never fires and the clause
loop re-enters on `;;`, failing with "Expected Word". Without `;;` the
grammar of the claim is accepted: the final clause may end directly before
`esac`, giving one `CaseCommand` with one clause whose patterns are
`["a"]`. -/
theorem clam_c6_case_double_semicolon_rejected :
    lexParse "case x in a) echo 1;; esac" =
      .error "Expected Word, got DoubleSemicolon at 1:20" ∧
    lexParse "case x in a) echo 1 esac" =
      .ok [.Case "x" [.mk ["a"] (.Simple ⟨[], [⟨"echo"⟩, ⟨"1"⟩], []⟩)]] :=
  ⟨rfl, rfl⟩

/-! ### Claim C7 -/

/-- C7 counterexample: an input that is nothing but a trailing comment makes
`tokenize` fail — after skipping the comment to end of input, `next_token`
recurses, reads the `'\x00'` end-of-input sentinel as the current character
and reports it as an unexpected character — instead of succeeding as the
claim states. -/
theorem clam_c7_counterexample :
    tokenize "#x" = .error "Unexpected character '\x00' at 1:3" :=
  rfl

theorem skipCommentAux_cons (d : Char) (l : List Char) (line col : Nat)
    (hd : ¬ d = '\n') :
    skipCommentAux (d :: l) line col = skipCommentAux l line (col + 1) := by
  simp [skipCommentAux, hd]

theorem skipCommentAux_no_newline :
    ∀ (c : List Char) (rest : List Char) (line col : Nat),
      (∀ ch ∈ c, ch ≠ '\n') →
      skipCommentAux (c ++ '\n' :: rest) line col = ⟨'\n' :: rest, line, col + c.length⟩ := by
  intro c
  induction c with
  | nil => intro rest line col _; simp [skipCommentAux]
  | cons d c' ih =>
    intro rest line col h
    have hd : ¬ d = '\n' := h d (by simp)
    rw [List.cons_append, skipCommentAux_cons d _ line col hd,
      ih rest line (col + 1) (fun ch hch => h ch (by simp [hch]))]
    simp only [List.length_cons, LexState.mk.injEq, true_and]
    omega

theorem skipCommentAux_all :
    ∀ (c : List Char) (line col : Nat), (∀ ch ∈ c, ch ≠ '\n') →
      skipCommentAux c line col = ⟨[], line, col + c.length⟩ := by
  intro c
  induction c with
  | nil => intro line col _; simp [skipCommentAux]
  | cons d c' ih =>
    intro line col h
    have hd : ¬ d = '\n' := h d (by simp)
    rw [skipCommentAux_cons d _ line col hd,
      ih line (col + 1) (fun ch hch => h ch (by simp [hch]))]
    simp only [List.length_cons, LexState.mk.injEq, true_and]
    omega

theorem nextToken_comment (fuel : Nat) (st : LexState)
    (hc : currentChar st = '#') :
    nextToken (fuel + 1) st = nextToken fuel (skipComment st) := by
  simp only [nextToken, hc]
  rfl

/-- C7 amended: `#` (outside quotes) does skip all characters up to but not
including the next newline and contributes zero tokens — after a comment,
`next_token` resumes exactly at the newline, with the column advanced over
the skipped characters. But when a trailing comment reaches the end of
input instead of a newline, `tokenize` fails with an
"Unexpected character" lexical error (reporting the `'\x00'` end-of-input
sentinel one column past the comment) rather than succeeding. -/
theorem clam_c7_amended :
    (∀ (fuel : Nat) (st : LexState) (c rest : List Char),
        st.input = '#' :: (c ++ '\n' :: rest) → (∀ ch ∈ c, ch ≠ '\n') →
        nextToken (fuel + 1) st =
          nextToken fuel ⟨'\n' :: rest, st.line, st.column + (c.length + 1)⟩) ∧
    (∀ c : List Char, (∀ ch ∈ c, ch ≠ '\n') →
        tokenize (String.mk ('#' :: c)) =
          .error ("Unexpected character '\x00' at 1:" ++ toString (c.length + 2))) := by
  constructor
  · intro fuel st c rest hin hnl
    rw [nextToken_comment fuel st (by simp [currentChar, hin])]
    have hskip : skipComment st = ⟨'\n' :: rest, st.line, st.column + (c.length + 1)⟩ := by
      unfold skipComment
      rw [hin]
      simp only [skipCommentAux, if_neg (by decide : ¬ '#' = '\n')]
      rw [skipCommentAux_no_newline c rest st.line (st.column + 1) hnl]
      simp only [LexState.mk.injEq, true_and]
      omega
    rw [hskip]
  · intro c hnl
    show tokenizeAux (('#' :: c).length + 1) ⟨'#' :: c, 1, 1⟩ = _
    have hlen : ('#' :: c).length + 1 = (c.length + 1) + 1 := by simp
    rw [hlen]
    simp only [tokenizeAux]
    have hws : skipWhitespace ⟨'#' :: c, 1, 1⟩ = ⟨'#' :: c, 1, 1⟩ := by
      simp [skipWhitespace, skipWhitespaceAux, isSkippable]
    rw [hws]
    simp only [isEof, List.isEmpty_cons, Bool.false_eq_true, if_false, reduceIte]
    have hskip : skipComment ⟨'#' :: c, 1, 1⟩ = ⟨[], 1, c.length + 2⟩ := by
      unfold skipComment
      simp only [skipCommentAux, if_neg (by decide : ¬ '#' = '\n')]
      rw [skipCommentAux_all c 1 2 hnl]
      simp only [LexState.mk.injEq, true_and]
      omega
    rw [nextToken_comment (c.length + 1) ⟨'#' :: c, 1, 1⟩ (by simp [currentChar]), hskip]
    have hnext : nextToken (c.length + 1) ⟨[], 1, c.length + 2⟩ =
        .error ("Unexpected character '\x00' at 1:" ++ toString (c.length + 2)) := by
      simp [nextToken, currentChar, isStandaloneDash, isWordStart]
      rw [show ("Unexpected character '\x00' at " ++ toString (1 : Nat) ++ ":") =
        "Unexpected character '\x00' at 1:" from rfl]
    rw [hnext]

/-- C7 witness: the comment-skip part applied at a concrete comment `#y`
followed by a newline, and the trailing-comment part at `#y`. -/
theorem clam_c7_witness :
    nextToken 6 ⟨['#', 'y', '\n'], 1, 1⟩ = nextToken 5 ⟨['\n'], 1, 3⟩ ∧
    tokenize (String.mk ['#', 'y']) = .error ("Unexpected character '\x00' at 1:" ++ toString 3) :=
  ⟨clam_c7_amended.1 5 ⟨['#', 'y', '\n'], 1, 1⟩ ['y'] [] rfl (by decide),
    clam_c7_amended.2 ['y'] (by decide)⟩

/-! ### Claim C8 -/

/-- C8 counterexample: the lexer's unterminated `${...}` error and the
parser's empty-command error — the two cases the claim itself names — are
fixed texts containing no digit at all, so they cannot include any 1-based
line and column. -/
theorem clam_c8_counterexample :
    tokenize "$\x7bx" = .error "Unclosed variable expansion" ∧
    (∀ c ∈ "Unclosed variable expansion".data, ¬ c.isDigit) ∧
    lexParse ";" = .error "Expected command" ∧
    (∀ c ∈ "Expected command".data, ¬ c.isDigit) :=
  ⟨rfl, by decide, rfl, by decide⟩

/-- C8 amended: lexer errors for unexpected characters and unterminated
quotes, and parser errors from token expectation (`expect`), do carry a
1-based line and column; but the unterminated `${...}` lexer error and the
parser's empty-command error are fixed texts without any position. -/
theorem clam_c8_amended :
    tokenize "@" = .error "Unexpected character '@' at 1:1" ∧
    tokenize "'abc" = .error "Unterminated string at 1:1" ∧
    lexParse "case x y" = .error "Expected In, got Word at 1:8" ∧
    tokenize "$\x7bx" = .error "Unclosed variable expansion" ∧
    lexParse ";" = .error "Expected command" :=
  ⟨rfl, rfl, rfl, rfl, rfl⟩

/-! ### Claim C10 -/

/-- The `List`-node invariant of C10, enforced recursively through the whole
tree: every `Command.List` has exactly two items and its second item's
separator is `Sequential` (the first item's separator is unconstrained). -/
inductive ListOk : Command → Prop where
  | Simple (cmd : SimpleCommand) : ListOk (.Simple cmd)
  | Pipeline (negated : Bool) (cmds : List Command)
      (h : ∀ x ∈ cmds, ListOk x) : ListOk (.Pipeline negated cmds)
  | List (c₁ c₂ : Command) (sep : Separator) (h₁ : ListOk c₁) (h₂ : ListOk c₂) :
      ListOk (.List [.mk c₁ sep, .mk c₂ .Sequential])
  | Subshell (c : Command) (h : ListOk c) : ListOk (.Subshell c)
  | If (cond thenPart : Command) (elifs : List (Command × Command))
      (elsePart : Option Command) (hc : ListOk cond) (ht : ListOk thenPart)
      (he1 : ∀ p ∈ elifs, ListOk p.1) (he2 : ∀ p ∈ elifs, ListOk p.2)
      (ho : ∀ e, elsePart = some e → ListOk e) :
      ListOk (.If cond thenPart elifs elsePart)
  | While (cond body : Command) (hc : ListOk cond) (hb : ListOk body) :
      ListOk (.While cond body)
  | Until (cond body : Command) (hc : ListOk cond) (hb : ListOk body) :
      ListOk (.Until cond body)
  | For (v : String) (ws : List String) (body : Command) (hb : ListOk body) :
      ListOk (.For v ws body)
  | Case (w : String) (cases : List CaseClause)
      (h : ∀ cl ∈ cases, ListOk (CaseClause.body cl)) : ListOk (.Case w cases)
  | FunctionDef (n : String) (body : Command) (hb : ListOk body) :
      ListOk (.FunctionDef n body)
  | Group (cmds : List Command) (h : ∀ x ∈ cmds, ListOk x) : ListOk (.Group cmds)

/-- The invariant carried by the accumulator arguments of the loop tags. -/
def PFnOk : PFn → Prop
  | .list1Loop left => ListOk left
  | .pipelineLoop cmds => ∀ x ∈ cmds, ListOk x
  | .elifLoop cond thenPart elifs =>
    ListOk cond ∧ ListOk thenPart ∧ ∀ p ∈ elifs, ListOk p.1 ∧ ListOk p.2
  | .compoundLoop _ left => ListOk left
  | .caseLoop _ cases => ∀ cl ∈ cases, ListOk (CaseClause.body cl)
  | .casePatterns _ cases _ => ∀ cl ∈ cases, ListOk (CaseClause.body cl)
  | .groupLoop cmds => ∀ x ∈ cmds, ListOk x
  | _ => True

theorem finishSimple_ok {cmd : SimpleCommand} {b : Bool} {st : PState}
    {c : Command} {st' : PState} (h : finishSimple cmd b st = .ok (c, st')) :
    c = .Simple cmd := by
  unfold finishSimple at h
  split at h
  · exact absurd h (by simp)
  · simp only [Except.ok.injEq, Prod.mk.injEq] at h
    exact h.1.symm

theorem simpleLoop_ok_simple :
    ∀ (fuel : Nat) (acc : SimpleCommand) (b : Bool) (st : PState) (c : Command)
      (st' : PState), simpleLoop fuel acc b st = .ok (c, st') →
      ∃ sc, c = .Simple sc := by
  intro fuel
  induction fuel with
  | zero => intro acc b st c st' h; simp [simpleLoop] at h
  | succ n ih =>
    intro acc b st c st' h
    simp only [simpleLoop] at h
    split at h
    · split at h
      · exact ⟨_, finishSimple_ok h⟩
      · exact ih _ _ _ _ _ h
    · split at h
      · split at h
        · exact absurd h (by simp)
        · split at h
          · exact ⟨_, finishSimple_ok h⟩
          · exact ih _ _ _ _ _ h
      · split at h
        · split at h
          · exact ⟨_, finishSimple_ok h⟩
          · exact ih _ _ _ _ _ h
        · exact ⟨_, finishSimple_ok h⟩

theorem parseSimpleCommand_ok_simple {st : PState} {c : Command} {st' : PState}
    (h : parseSimpleCommand st = .ok (c, st')) : ∃ sc, c = .Simple sc :=
  simpleLoop_ok_simple _ _ _ _ _ _ h

theorem listOk_singleton {c : Command} (h : ListOk c) : ∀ x ∈ [c], ListOk x := by
  intro x hx
  simp only [List.mem_singleton] at hx
  exact hx ▸ h

set_option maxHeartbeats 1600000 in
/-- The master invariant: any command a `parseStep` call returns satisfies
`ListOk`, provided the commands carried in the tag do. -/
theorem parseStep_ok_listOk :
    ∀ (fuel : Nat) (fn : PFn) (st : PState) (c : Command) (st' : PState),
      PFnOk fn → parseStep fuel fn st = .ok (c, st') → ListOk c := by
  intro fuel
  induction fuel with
  | zero => intro fn st c st' _ h; exact Except.noConfusion h
  | succ n ih =>
    intro fn st c st' hfn h
    cases fn with
    | list =>
      simp only [parseStep] at h
      exact ih .list0 _ _ _ trivial h
    | list0 =>
      simp only [parseStep] at h
      split at h
      · exact Except.noConfusion h
      · rename_i first st1 h1
        split at h
        · injection h with h2
          injection h2 with h3 h4
          subst h3
          exact ih .list1 st first st1 trivial h1
        · rename_i hlen
          simp at hlen
    | list1 =>
      simp only [parseStep] at h
      split at h
      · exact Except.noConfusion h
      · rename_i left st1 h1
        exact ih (.list1Loop left) st1 c st' (ih .pipelineCommand st left st1 trivial h1) h
    | list1Loop left =>
      simp only [parseStep] at h
      split at h
      · split at h
        · exact Except.noConfusion h
        · rename_i right st2 h1
          exact ih (.list1Loop (.List [.mk left (scanListSep st).2.1,
              .mk right .Sequential])) _ _ _
            (ListOk.List left right (scanListSep st).2.1 hfn
              (ih .pipelineCommand _ right st2 trivial h1)) h
      · injection h with h2
        injection h2 with h3 h4
        subst h3
        exact hfn
    | pipelineCommand =>
      simp only [parseStep] at h
      split at h
      · exact Except.noConfusion h
      · rename_i pl st2 h1
        have hpl := ih .pipeline _ pl st2 trivial h1
        split at h
        · cases pl
          case Pipeline neg cmds =>
            injection h with h2
            injection h2 with h3 h4
            subst h3
            cases hpl with
            | Pipeline _ _ hcs => exact ListOk.Pipeline true cmds hcs
          all_goals
            (injection h with h2
             injection h2 with h3 h4
             subst h3
             exact ListOk.Pipeline true _ (listOk_singleton hpl))
        · injection h with h2
          injection h2 with h3 h4
          subst h3
          exact hpl
    | pipeline =>
      simp only [parseStep] at h
      split at h
      · exact Except.noConfusion h
      · rename_i first st1 h1
        exact ih (.pipelineLoop [first]) st1 c st'
          (listOk_singleton (ih .command st first st1 trivial h1)) h
    | pipelineLoop cmds =>
      simp only [parseStep] at h
      split at h
      · split at h
        · exact Except.noConfusion h
        · rename_i c0 st2 h1
          refine ih (.pipelineLoop (cmds ++ [c0])) st2 c st' ?_ h
          intro x hx
          rcases List.mem_append.mp hx with hx | hx
          · exact hfn x hx
          · simp only [List.mem_singleton] at hx
            exact hx ▸ ih .command _ c0 st2 trivial h1
      · split at h
        · rename_i c1
          injection h with h2
          injection h2 with h3 h4
          subst h3
          exact hfn c1 (by simp)
        · injection h with h2
          injection h2 with h3 h4
          subst h3
          exact ListOk.Pipeline false cmds hfn
    | command =>
      simp only [parseStep] at h
      split at h
      · exact ih .ifCommand st c st' trivial h
      · split at h
        · exact ih .whileCommand st c st' trivial h
        · split at h
          · exact ih .untilCommand st c st' trivial h
          · split at h
            · exact ih .forCommand st c st' trivial h
            · split at h
              · exact ih .caseCommand st c st' trivial h
              · split at h
                · exact ih .subshell st c st' trivial h
                · split at h
                  · exact ih .group st c st' trivial h
                  · split at h
                    · exact ih .functionDef st c st' trivial h
                    · obtain ⟨sc, rfl⟩ := parseSimpleCommand_ok_simple h
                      exact ListOk.Simple sc
    | ifCommand =>
      simp only [parseStep] at h
      split at h
      · exact Except.noConfusion h
      · rename_i t1 st1 he1
        split at h
        · exact Except.noConfusion h
        · rename_i cond st2 h1
          split at h
          · exact Except.noConfusion h
          · rename_i t2 st3 he2
            split at h
            · exact Except.noConfusion h
            · rename_i thenPart st4 h2
              exact ih (.elifLoop cond thenPart []) st4 c st'
                ⟨ih (.compoundList [.Then]) _ _ _ trivial h1,
                  ih (.compoundList [.Elif, .Else, .Fi]) _ _ _ trivial h2, by simp⟩ h
    | elifLoop cond thenPart elifs =>
      obtain ⟨hcond, hthen, helifs⟩ := hfn
      simp only [parseStep] at h
      split at h
      · split at h
        · exact Except.noConfusion h
        · rename_i ec st2 h1
          split at h
          · exact Except.noConfusion h
          · rename_i t2 st3 he2
            split at h
            · exact Except.noConfusion h
            · rename_i eb st4 h2
              refine ih (.elifLoop cond thenPart (elifs ++ [(ec, eb)])) st4 c st' ?_ h
              refine ⟨hcond, hthen, ?_⟩
              intro p hp
              rcases List.mem_append.mp hp with hp | hp
              · exact helifs p hp
              · simp only [List.mem_singleton] at hp
                exact hp ▸ ⟨ih (.compoundList [.Then]) _ _ _ trivial h1,
                  ih (.compoundList [.Elif, .Else, .Fi]) _ _ _ trivial h2⟩
      · split at h
        · split at h
          · exact Except.noConfusion h
          · rename_i els st2 h1
            split at h
            · exact Except.noConfusion h
            · rename_i t2 st3 he2
              injection h with h2
              injection h2 with h3 h4
              subst h3
              refine ListOk.If cond thenPart elifs (some els) hcond hthen
                (fun p hp => (helifs p hp).1) (fun p hp => (helifs p hp).2) ?_
              intro e he
              simp only [Option.some.injEq] at he
              exact he ▸ ih (.compoundList [.Fi]) _ _ _ trivial h1
        · split at h
          · exact Except.noConfusion h
          · rename_i t1 st1 he1
            injection h with h2
            injection h2 with h3 h4
            subst h3
            refine ListOk.If cond thenPart elifs none hcond hthen
              (fun p hp => (helifs p hp).1) (fun p hp => (helifs p hp).2) ?_
            intro e he
            exact absurd he (by simp)
    | compoundList terminators =>
      simp only [parseStep] at h
      split at h
      · exact Except.noConfusion h
      · rename_i left st1 h1
        exact ih (.compoundLoop terminators left) st1 c st'
          (ih .pipelineCommand _ left st1 trivial h1) h
    | compoundLoop terminators left =>
      simp only [parseStep] at h
      split at h
      · injection h with h2
        injection h2 with h3 h4
        subst h3
        exact hfn
      · split at h
        · split at h
          · injection h with h2
            injection h2 with h3 h4
            subst h3
            exact hfn
          · split at h
            · exact Except.noConfusion h
            · rename_i right st2 h1
              exact ih (.compoundLoop terminators (.List [.mk left (scanListSep st).2.1,
                  .mk right .Sequential])) _ _ _
                (ListOk.List left right (scanListSep st).2.1 hfn
                  (ih .pipelineCommand _ right st2 trivial h1)) h
        · injection h with h2
          injection h2 with h3 h4
          subst h3
          exact hfn
    | whileCommand =>
      simp only [parseStep] at h
      split at h
      · exact Except.noConfusion h
      · rename_i t1 st1 he1
        split at h
        · exact Except.noConfusion h
        · rename_i cond st2 h1
          split at h
          · exact Except.noConfusion h
          · rename_i t2 st3 he2
            split at h
            · exact Except.noConfusion h
            · rename_i body st4 h2
              split at h
              · exact Except.noConfusion h
              · rename_i t3 st5 he3
                injection h with h2
                injection h2 with h3 h4
                subst h3
                exact ListOk.While cond body (ih (.compoundList [.Do]) _ _ _ trivial h1)
                  (ih (.compoundList [.Done]) _ _ _ trivial h2)
    | untilCommand =>
      simp only [parseStep] at h
      split at h
      · exact Except.noConfusion h
      · rename_i t1 st1 he1
        split at h
        · exact Except.noConfusion h
        · rename_i cond st2 h1
          split at h
          · exact Except.noConfusion h
          · rename_i t2 st3 he2
            split at h
            · exact Except.noConfusion h
            · rename_i body st4 h2
              split at h
              · exact Except.noConfusion h
              · rename_i t3 st5 he3
                injection h with h2
                injection h2 with h3 h4
                subst h3
                exact ListOk.Until cond body (ih (.compoundList [.Do]) _ _ _ trivial h1)
                  (ih (.compoundList [.Done]) _ _ _ trivial h2)
    | forCommand =>
      simp only [parseStep] at h
      split at h
      · exact Except.noConfusion h
      · rename_i t1 st1 he1
        split at h
        · exact Except.noConfusion h
        · rename_i varTok st2 he2
          split at h
          · exact Except.noConfusion h
          · rename_i t2 st7 he3
            split at h
            · exact Except.noConfusion h
            · rename_i body st8 h2
              split at h
              · exact Except.noConfusion h
              · rename_i t3 st9 he4
                injection h with h2
                injection h2 with h3 h4
                subst h3
                exact ListOk.For _ _ _ (ih (.compoundList [.Done]) _ _ _ trivial h2)
    | caseCommand =>
      simp only [parseStep] at h
      split at h
      · exact Except.noConfusion h
      · rename_i t1 st1 he1
        split at h
        · exact Except.noConfusion h
        · rename_i wordTok st2 he2
          split at h
          · exact Except.noConfusion h
          · rename_i t2 st3 he3
            exact ih (.caseLoop wordTok.value []) _ c st' (by simp [PFnOk]) h
    | caseLoop word cases =>
      simp only [parseStep] at h
      split at h
      · exact ih (.casePatterns word cases []) _ c st' hfn h
      · split at h
        · exact Except.noConfusion h
        · rename_i t1 st1 he1
          injection h with h2
          injection h2 with h3 h4
          subst h3
          exact ListOk.Case word cases hfn
    | casePatterns word cases patterns =>
      simp only [parseStep] at h
      split at h
      · exact Except.noConfusion h
      · rename_i ptok st1 he1
        split at h
        · exact ih (.casePatterns word cases (patterns ++ [ptok.value])) _ c st' hfn h
        · split at h
          · exact Except.noConfusion h
          · rename_i t2 st2 he2
            split at h
            · exact Except.noConfusion h
            · rename_i body st3 h1
              refine ih (.caseLoop word
                (cases ++ [CaseClause.mk (patterns ++ [ptok.value]) body])) _ c st' ?_ h
              intro cl hcl
              rcases List.mem_append.mp hcl with hcl | hcl
              · exact hfn cl hcl
              · simp only [List.mem_singleton] at hcl
                subst hcl
                exact ih .list _ body st3 trivial h1
    | subshell =>
      simp only [parseStep] at h
      split at h
      · exact Except.noConfusion h
      · rename_i t1 st1 he1
        split at h
        · exact Except.noConfusion h
        · rename_i c0 st2 h1
          split at h
          · exact Except.noConfusion h
          · rename_i t2 st3 he2
            injection h with h2
            injection h2 with h3 h4
            subst h3
            exact ListOk.Subshell c0 (ih .list _ c0 st2 trivial h1)
    | group =>
      simp only [parseStep] at h
      split at h
      · exact Except.noConfusion h
      · rename_i t1 st1 he1
        exact ih (.groupLoop []) _ c st' (by simp [PFnOk]) h
    | groupLoop cmds =>
      simp only [parseStep] at h
      split at h
      · split at h
        · exact Except.noConfusion h
        · rename_i c0 st1 h1
          refine ih (.groupLoop (cmds ++ [c0])) _ c st' ?_ h
          intro x hx
          rcases List.mem_append.mp hx with hx | hx
          · exact hfn x hx
          · simp only [List.mem_singleton] at hx
            exact hx ▸ ih .list _ c0 st1 trivial h1
      · split at h
        · exact Except.noConfusion h
        · rename_i t1 st1 he1
          injection h with h2
          injection h2 with h3 h4
          subst h3
          exact ListOk.Group cmds hfn
    | functionDef =>
      simp only [parseStep] at h
      split at h
      · exact Except.noConfusion h
      · rename_i t1 st1 he1
        split at h
        · exact Except.noConfusion h
        · rename_i nameTok st2 he2
          split at h
          · exact Except.noConfusion h
          · rename_i st3 he3
            split at h
            · exact Except.noConfusion h
            · rename_i body st4 h1
              injection h with h2
              injection h2 with h3 h4
              subst h3
              exact ListOk.FunctionDef _ _ (ih .group _ _ _ trivial h1)

theorem parseAux_ok_listOk :
    ∀ (fuel pfuel : Nat) (acc : List Command) (st : PState) (cmds : List Command),
      (∀ c ∈ acc, ListOk c) → parseAux fuel pfuel acc st = .ok cmds →
      ∀ c ∈ cmds, ListOk c := by
  intro fuel
  induction fuel with
  | zero => intro pfuel acc st cmds _ h; simp [parseAux] at h
  | succ n ih =>
    intro pfuel acc st cmds hacc h
    simp only [parseAux] at h
    split at h
    · simp only [Except.ok.injEq] at h
      exact h ▸ hacc
    · split at h
      · exact absurd h (by simp)
      · rename_i c0 st1 heq
        refine ih pfuel (acc ++ [c0]) _ cmds ?_ h
        intro x hx
        rcases List.mem_append.mp hx with hx | hx
        · exact hacc x hx
        · simp only [List.mem_singleton] at hx
          exact hx ▸ parseStep_ok_listOk pfuel .list st c0 st1 trivial heq

/-- C10: every `Command.List` node occurring anywhere in an AST returned by
`Parser::parse` has exactly two items and its second item's separator is
`Sequential` (`ListOk` states exactly this, recursively through all
children; longer chains are built as left-nested two-item lists by
`parse_list1`/`parse_compound_list`, and `parse_list0`'s list branch is
dead code). -/
theorem clam_c10_list_invariant (tokens : List Token) (cmds : List Command)
    (h : parse tokens = .ok cmds) : ∀ c ∈ cmds, ListOk c :=
  parseAux_ok_listOk _ _ [] _ cmds (by simp) h

/-- C10 witness: the parse of `a && b` (a `List` node) satisfies the
invariant. -/
theorem clam_c10_witness :
    parse [⟨.Word, "a", ⟨1, 1⟩⟩, ⟨.And, "&&", ⟨1, 3⟩⟩, ⟨.Word, "b", ⟨1, 6⟩⟩,
        ⟨.Eof, "", ⟨1, 7⟩⟩] =
      .ok [.List [.mk (.Simple ⟨[], [⟨"a"⟩], []⟩) .And,
        .mk (.Simple ⟨[], [⟨"b"⟩], []⟩) .Sequential]] ∧
    ∀ c ∈ [Command.List [.mk (.Simple ⟨[], [⟨"a"⟩], []⟩) .And,
        .mk (.Simple ⟨[], [⟨"b"⟩], []⟩) .Sequential]], ListOk c :=
  ⟨rfl, clam_c10_list_invariant [⟨.Word, "a", ⟨1, 1⟩⟩, ⟨.And, "&&", ⟨1, 3⟩⟩,
    ⟨.Word, "b", ⟨1, 6⟩⟩, ⟨.Eof, "", ⟨1, 7⟩⟩] _ rfl⟩

/-! ### Claim C9 -/

theorem expandAux_no_dollar (ev : List (String × String)) (host : HostEnv) :
    ∀ (fuel : Nat) (l : List Char), l.length < fuel → (∀ c ∈ l, c ≠ '$') →
      expandAux ev host fuel l = l := by
  intro fuel
  induction fuel with
  | zero => intro l hlen _; omega
  | succ n ih =>
    intro l hlen hnd
    cases l with
    | nil => rfl
    | cons c rest =>
      have hc : ¬ c = '$' := hnd c (by simp)
      simp only [expandAux, if_neg hc]
      rw [ih rest (by simpa using Nat.lt_of_succ_lt_succ hlen)
        (fun d hd => hnd d (by simp [hd]))]

/-- C9: a word whose text contains no `$` is returned unchanged by
`expand_variables`, whatever the shell-variable mapping and the host
environment contain. -/
theorem clam_c9_no_dollar_unchanged (ev : List (String × String)) (host : HostEnv)
    (s : String) (h : ∀ c ∈ s.data, c ≠ '$') :
    expandVariables ev host s = s := by
  unfold expandVariables
  rw [expandAux_no_dollar ev host _ s.data (Nat.lt_succ_self _) h]

/-- C9 witness on a concrete dollar-free word and a nonempty mapping. -/
theorem clam_c9_witness :
    expandVariables [("abc", "X")] (fun _ => some "Y") "abc" = "abc" :=
  clam_c9_no_dollar_unchanged [("abc", "X")] (fun _ => some "Y") "abc" (by decide)

end Clam
